import Mathlib

/-!
Verification of the Reposy synchronization engine (repository.go and the
S3 client).  The Go code is shallowly embedded: the `map[string]*T` values
become association lists keyed by normalized slash paths (represented as
their component lists), the filesystem becomes an explicit finite map from
paths to file records, remote-store calls are logged as operations on an
explicit state, and the cryptographic primitives (SHA-256, HMAC-SHA256)
are opaque function parameters, since their implementations live in the Go
standard library, not in this repository.

Go map iteration order is unspecified; the embedding fixes the list order.
All properties proved below are insensitive to that order except where
noted in the accompanying analysis.
-/

/-- A repository-relative slash path, split into its components. -/
abbrev SPath := List String

/-- Association list keyed by paths; models Go `map[string]*T`. -/
abbrev AListP (α : Type) := List (SPath × α)

/-- Lookup in an association list (first matching key wins). -/
def alookup {α : Type} : AListP α → SPath → Option α
  | [], _ => none
  | (k, v) :: rest, p => if k = p then some v else alookup rest p

/-- Map update: replaces the first binding of the key, or appends a new one;
models Go `m[k] = v`. -/
def aset {α : Type} : AListP α → SPath → α → AListP α
  | [], p, v => [(p, v)]
  | (k, w) :: rest, p, v => if k = p then (p, v) :: rest else (k, w) :: aset rest p v

/-- Map deletion: removes the first binding of the key; models Go `delete(m, k)`. -/
def aerase {α : Type} : AListP α → SPath → AListP α
  | [], _ => []
  | (k, w) :: rest, p => if k = p then rest else (k, w) :: aerase rest p

/-- The keys of an association list. -/
def akeys {α : Type} (m : AListP α) : List SPath := m.map Prod.fst

/-- No duplicate keys: the invariant every Go map satisfies. -/
def NodupKeys {α : Type} (m : AListP α) : Prop := (akeys m).Nodup

instance {α : Type} (m : AListP α) : Decidable (NodupKeys m) := by
  unfold NodupKeys; infer_instance

theorem alookup_nil {α : Type} (p : SPath) : alookup ([] : AListP α) p = none := rfl

theorem alookup_cons {α : Type} (k : SPath) (v : α) (rest : AListP α) (p : SPath) :
    alookup ((k, v) :: rest) p = if k = p then some v else alookup rest p := rfl

theorem akeys_cons {α : Type} (k : SPath) (v : α) (rest : AListP α) :
    akeys ((k, v) :: rest) = k :: akeys rest := rfl

theorem nodupKeys_cons {α : Type} {k : SPath} {v : α} {rest : AListP α}
    (h : NodupKeys ((k, v) :: rest)) : k ∉ akeys rest ∧ NodupKeys rest :=
  List.nodup_cons.mp h

theorem alookup_aset {α : Type} (m : AListP α) (p : SPath) (v : α) (q : SPath) :
    alookup (aset m p v) q = if p = q then some v else alookup m q := by
  induction m with
  | nil =>
    show alookup [(p, v)] q = _
    rw [alookup_cons, alookup_nil]
  | cons hd tl ih =>
    obtain ⟨k, w⟩ := hd
    rcases eq_or_ne k p with hkp | hkp
    · subst hkp
      show alookup (if k = k then (k, v) :: tl else _) q = _
      rw [if_pos rfl, alookup_cons, alookup_cons]
      rcases eq_or_ne k q with hkq | hkq
      · rw [if_pos hkq, if_pos hkq]
      · rw [if_neg hkq, if_neg hkq, if_neg hkq]
    · show alookup (if k = p then _ else (k, w) :: aset tl p v) q = _
      rw [if_neg hkp, alookup_cons, alookup_cons]
      rcases eq_or_ne k q with hkq | hkq
      · subst hkq
        rw [if_pos rfl, if_pos rfl, if_neg (Ne.symm hkp)]
      · rw [if_neg hkq, if_neg hkq, ih]

theorem alookup_aerase_ne {α : Type} (m : AListP α) (p q : SPath) (hpq : p ≠ q) :
    alookup (aerase m p) q = alookup m q := by
  induction m with
  | nil => rfl
  | cons hd tl ih =>
    obtain ⟨k, w⟩ := hd
    rcases eq_or_ne k p with hkp | hkp
    · subst hkp
      show alookup (if k = k then tl else _) q = _
      rw [if_pos rfl, alookup_cons, if_neg hpq]
    · show alookup (if k = p then _ else (k, w) :: aerase tl p) q = _
      rw [if_neg hkp, alookup_cons, alookup_cons, ih]

theorem alookup_eq_none_iff {α : Type} (m : AListP α) (p : SPath) :
    alookup m p = none ↔ p ∉ akeys m := by
  induction m with
  | nil => simp [alookup_nil, akeys]
  | cons hd tl ih =>
    obtain ⟨k, w⟩ := hd
    rw [alookup_cons, akeys_cons, List.mem_cons]
    rcases eq_or_ne k p with hkp | hkp
    · subst hkp
      simp
    · rw [if_neg hkp, ih]
      constructor
      · intro h hmem
        rcases hmem with h1 | h1
        · exact hkp h1.symm
        · exact h h1
      · intro h
        exact fun h1 => h (Or.inr h1)

theorem alookup_eq_none_of_notMem {α : Type} {m : AListP α} {p : SPath}
    (h : p ∉ akeys m) : alookup m p = none :=
  (alookup_eq_none_iff m p).mpr h

theorem alookup_aerase_self {α : Type} (m : AListP α) (p : SPath) (hnd : NodupKeys m) :
    alookup (aerase m p) p = none := by
  induction m with
  | nil => rfl
  | cons hd tl ih =>
    obtain ⟨k, w⟩ := hd
    obtain ⟨hk, hnd'⟩ := nodupKeys_cons hnd
    rcases eq_or_ne k p with hkp | hkp
    · subst hkp
      show alookup (if k = k then tl else _) k = _
      rw [if_pos rfl]
      exact alookup_eq_none_of_notMem hk
    · show alookup (if k = p then _ else (k, w) :: aerase tl p) p = _
      rw [if_neg hkp, alookup_cons, if_neg hkp, ih hnd']

theorem aerase_of_notMem {α : Type} {m : AListP α} {p : SPath}
    (h : alookup m p = none) : aerase m p = m := by
  induction m with
  | nil => rfl
  | cons hd tl ih =>
    obtain ⟨k, w⟩ := hd
    rw [alookup_cons] at h
    rcases eq_or_ne k p with hkp | hkp
    · rw [if_pos hkp] at h
      exact absurd h (by simp)
    · rw [if_neg hkp] at h
      show (if k = p then tl else (k, w) :: aerase tl p) = _
      rw [if_neg hkp, ih h]

theorem mem_of_alookup_eq_some {α : Type} {m : AListP α} {p : SPath} {v : α}
    (h : alookup m p = some v) : (p, v) ∈ m := by
  induction m with
  | nil => exact absurd h (by simp [alookup_nil])
  | cons hd tl ih =>
    obtain ⟨k, w⟩ := hd
    rw [alookup_cons] at h
    rcases eq_or_ne k p with hkp | hkp
    · subst hkp
      rw [if_pos rfl] at h
      obtain rfl : w = v := Option.some.injEq _ _ ▸ h
      exact List.mem_cons_self _ _
    · rw [if_neg hkp] at h
      exact List.mem_cons_of_mem _ (ih h)

theorem alookup_eq_some_of_mem {α : Type} {m : AListP α} {p : SPath} {v : α}
    (hnd : NodupKeys m) (h : (p, v) ∈ m) : alookup m p = some v := by
  induction m with
  | nil => exact absurd h (by simp)
  | cons hd tl ih =>
    obtain ⟨k, w⟩ := hd
    obtain ⟨hk, hnd'⟩ := nodupKeys_cons hnd
    rcases List.mem_cons.mp h with h1 | h1
    · obtain ⟨rfl, rfl⟩ := Prod.mk.injEq .. ▸ h1
      rw [alookup_cons, if_pos rfl]
    · have hkp : k ≠ p := by
        intro hkp
        subst hkp
        exact hk (List.mem_map.mpr ⟨(k, v), h1, rfl⟩)
      rw [alookup_cons, if_neg hkp]
      exact ih hnd' h1

theorem akeys_aset {α : Type} (m : AListP α) (p : SPath) (v : α) :
    akeys (aset m p v) = if p ∈ akeys m then akeys m else akeys m ++ [p] := by
  induction m with
  | nil => simp [aset, akeys]
  | cons hd tl ih =>
    obtain ⟨k, w⟩ := hd
    rcases eq_or_ne k p with hkp | hkp
    · subst hkp
      show akeys (if k = k then (k, v) :: tl else _) = _
      rw [if_pos rfl, akeys_cons, akeys_cons]
      simp
    · show akeys (if k = p then _ else (k, w) :: aset tl p v) = _
      rw [if_neg hkp, akeys_cons, akeys_cons, ih]
      rcases em (p ∈ akeys tl) with hmem | hmem
      · rw [if_pos hmem, if_pos (List.mem_cons.mpr (Or.inr hmem))]
      · rw [if_neg hmem, if_neg (by
          intro h
          rcases List.mem_cons.mp h with h1 | h1
          · exact hkp h1.symm
          · exact hmem h1)]
        rfl

theorem nodupKeys_aset {α : Type} {m : AListP α} (hnd : NodupKeys m) (p : SPath) (v : α) :
    NodupKeys (aset m p v) := by
  unfold NodupKeys
  rw [akeys_aset]
  rcases em (p ∈ akeys m) with hmem | hmem
  · rw [if_pos hmem]; exact hnd
  · rw [if_neg hmem]
    refine List.Nodup.append hnd (List.nodup_singleton p) ?_
    intro q hq hq'
    rcases List.mem_singleton.mp hq' with rfl
    exact hmem hq

theorem akeys_aerase_subset {α : Type} (m : AListP α) (p : SPath) :
    akeys (aerase m p) ⊆ akeys m := by
  induction m with
  | nil => simp [aerase]
  | cons hd tl ih =>
    obtain ⟨k, w⟩ := hd
    rcases eq_or_ne k p with hkp | hkp
    · subst hkp
      show akeys (if k = k then tl else _) ⊆ _
      rw [if_pos rfl, akeys_cons]
      exact List.subset_cons_self _ _
    · show akeys (if k = p then _ else (k, w) :: aerase tl p) ⊆ _
      rw [if_neg hkp, akeys_cons, akeys_cons]
      exact List.cons_subset_cons _ ih

theorem nodupKeys_aerase {α : Type} {m : AListP α} (hnd : NodupKeys m) (p : SPath) :
    NodupKeys (aerase m p) := by
  induction m with
  | nil => exact hnd
  | cons hd tl ih =>
    obtain ⟨k, w⟩ := hd
    obtain ⟨hk, hnd'⟩ := nodupKeys_cons hnd
    rcases eq_or_ne k p with hkp | hkp
    · subst hkp
      show NodupKeys (if k = k then tl else _)
      rw [if_pos rfl]
      exact hnd'
    · show NodupKeys (if k = p then _ else (k, w) :: aerase tl p)
      rw [if_neg hkp]
      refine List.nodup_cons.mpr ⟨?_, ih hnd'⟩
      intro hmem
      exact hk (akeys_aerase_subset tl p hmem)

theorem alookup_append {α : Type} (a b : AListP α) (p : SPath) :
    alookup (a ++ b) p =
      match alookup a p with
      | some v => some v
      | none => alookup b p := by
  induction a with
  | nil => rfl
  | cons hd tl ih =>
    obtain ⟨k, w⟩ := hd
    rw [List.cons_append, alookup_cons, alookup_cons]
    rcases eq_or_ne k p with hkp | hkp
    · rw [if_pos hkp, if_pos hkp]
    · rw [if_neg hkp, if_neg hkp, ih]

theorem akeys_filter_sublist {α : Type} (f : SPath × α → Bool) (m : AListP α) :
    List.Sublist (akeys (m.filter f)) (akeys m) :=
  (List.filter_sublist m).map Prod.fst

theorem nodupKeys_filter {α : Type} (f : SPath × α → Bool) {m : AListP α}
    (hnd : NodupKeys m) : NodupKeys (m.filter f) :=
  List.Nodup.sublist (akeys_filter_sublist f m) hnd

theorem alookup_filter {α : Type} (f : SPath × α → Bool) (m : AListP α)
    (hnd : NodupKeys m) (p : SPath) :
    alookup (m.filter f) p =
      match alookup m p with
      | some v => if f (p, v) then some v else none
      | none => none := by
  induction m with
  | nil => rfl
  | cons hd tl ih =>
    obtain ⟨k, w⟩ := hd
    obtain ⟨hk, hnd'⟩ := nodupKeys_cons hnd
    rw [alookup_cons]
    rw [List.filter_cons]
    rcases eq_or_ne k p with hkp | hkp
    · subst hkp
      rw [if_pos rfl]
      rcases hf : f (k, w) with _ | _
      · rw [if_neg (by simp [hf])]
        simp only [hf, Bool.false_eq_true, if_false]
        refine alookup_eq_none_of_notMem ?_
        intro hmem
        exact hk ((akeys_filter_sublist f tl).subset hmem)
      · rw [if_pos (by simp [hf]), alookup_cons, if_pos rfl]
        simp [hf]
    · rw [if_neg hkp]
      rcases hf : f (k, w) with _ | _
      · rw [if_neg (by simp [hf])]
        exact ih hnd'
      · rw [if_pos (by simp [hf]), alookup_cons, if_neg hkp]
        exact ih hnd'

theorem akeys_filterMap_sublist {α β : Type} (g : SPath × α → Option (SPath × β))
    (hg : ∀ q r, g q = some r → r.1 = q.1) (m : AListP α) :
    List.Sublist (akeys (m.filterMap g)) (akeys m) := by
  induction m with
  | nil => simp [akeys]
  | cons hd tl ih =>
    rw [List.filterMap_cons]
    rcases hgd : g hd with _ | r
    · exact List.Sublist.trans ih (List.sublist_cons_self _ _)
    · have hr : r.1 = hd.1 := hg hd r hgd
      show List.Sublist (akeys (r :: tl.filterMap g)) (akeys (hd :: tl))
      obtain ⟨r1, r2⟩ := r
      cases hr
      rw [akeys_cons, show akeys (hd :: tl) = hd.1 :: akeys tl from rfl]
      exact List.Sublist.cons₂ _ ih

theorem nodupKeys_filterMap {α β : Type} (g : SPath × α → Option (SPath × β))
    (hg : ∀ q r, g q = some r → r.1 = q.1) {m : AListP α} (hnd : NodupKeys m) :
    NodupKeys (m.filterMap g) :=
  List.Nodup.sublist (akeys_filterMap_sublist g hg m) hnd

theorem alookup_filterMap {α β : Type} (g : SPath × α → Option (SPath × β))
    (hg : ∀ q r, g q = some r → r.1 = q.1) (m : AListP α)
    (hnd : NodupKeys m) (p : SPath) :
    alookup (m.filterMap g) p =
      match alookup m p with
      | some v => (g (p, v)).map Prod.snd
      | none => none := by
  induction m with
  | nil => rfl
  | cons hd tl ih =>
    obtain ⟨k, w⟩ := hd
    obtain ⟨hk, hnd'⟩ := nodupKeys_cons hnd
    rw [alookup_cons, List.filterMap_cons]
    rcases eq_or_ne k p with hkp | hkp
    · subst hkp
      rw [if_pos rfl]
      rcases hgd : g (k, w) with _ | r
      · show alookup (tl.filterMap g) k = _
        simp only [hgd, Option.map_none']
        refine alookup_eq_none_of_notMem ?_
        intro hmem
        exact hk ((akeys_filterMap_sublist g hg tl).subset hmem)
      · have hr : r.1 = k := hg (k, w) r hgd
        show alookup (r :: tl.filterMap g) k = _
        obtain ⟨r1, r2⟩ := r
        cases hr
        rw [alookup_cons, if_pos rfl]
        simp [hgd]
    · rw [if_neg hkp]
      rcases hgd : g (k, w) with _ | r
      · exact ih hnd'
      · have hr : r.1 = k := hg (k, w) r hgd
        show alookup (r :: tl.filterMap g) p = _
        obtain ⟨r1, r2⟩ := r
        cases hr
        rw [alookup_cons, if_neg hkp]
        exact ih hnd'

/-! ### Data model (repository.go) -/

/-- Go `FileItem`: one entry of the local snapshot. -/
structure FileItem where
  FilePath : SPath
  ModTime : Int
  Tombstone : Bool
deriving DecidableEq

/-- Go `RemoteItem`: one record of the remote index.  A Go struct literal
omitting `SHA256` leaves it at the empty string. -/
structure RemoteItem where
  ModTime : Int
  Tombstone : Bool
  SHA256 : String
deriving DecidableEq

/-- One file of the modeled local filesystem: its bytes and modification time. -/
structure FsFile where
  content : String
  modTime : Int
deriving DecidableEq

/-- The local snapshot map (Go `map[string]*FileItem`). -/
abbrev LMap := AListP FileItem

/-- The remote index map (Go `map[string]*RemoteItem`). -/
abbrev RMap := AListP RemoteItem

/-- The local filesystem, keyed by repository-relative path. -/
abbrev Fs := AListP FsFile

/-- Go constant `FETCH_HEAD = ".git/FETCH_HEAD"`, as path components. -/
def FETCH_HEAD : SPath := [".git", "FETCH_HEAD"]

/-! ### Step 2 of the reconciler: classification (repository.go 294-315).

The two loops of `compareAndSync` that populate `localNewerItems` and
`remoteNewerItems` are embedded as filter / filterMap passes over the two
maps; with duplicate-free keys this is exactly the set of insertions the
Go loops perform. -/

/-- The `localNewerItems` map built by `compareAndSync`: local-only paths,
plus both-present paths whose local `ModTime` is strictly greater. -/
def localNewerOf (localItems : LMap) (remoteItems : RMap) : LMap :=
  localItems.filter (fun q => (alookup remoteItems q.1).isNone)
    ++ remoteItems.filterMap (fun q =>
        match alookup localItems q.1 with
        | some localItem =>
          if localItem.ModTime > q.2.ModTime then some (q.1, localItem) else none
        | none => none)

/-- The `remoteNewerItems` map built by `compareAndSync`: remote-only paths,
plus both-present paths whose remote `ModTime` is strictly greater. -/
def remoteNewerOf (localItems : LMap) (remoteItems : RMap) : RMap :=
  remoteItems.filterMap (fun q =>
    match alookup localItems q.1 with
    | some localItem =>
      if localItem.ModTime > q.2.ModTime then none
      else if localItem.ModTime < q.2.ModTime then some q
      else none
    | none => some q)

theorem localNewerOf_keyPreserving (localItems : LMap) :
    ∀ (q : SPath × RemoteItem) (r : SPath × FileItem),
      (match alookup localItems q.1 with
       | some localItem =>
         if localItem.ModTime > q.2.ModTime then some (q.1, localItem) else none
       | none => none) = some r → r.1 = q.1 := by
  intro q r h
  rcases hl : alookup localItems q.1 with _ | l
  · simp only [hl] at h; exact absurd h (by simp)
  · simp only [hl] at h
    rcases em (l.ModTime > q.2.ModTime) with hgt | hgt
    · rw [if_pos hgt] at h
      cases h; rfl
    · rw [if_neg hgt] at h
      exact absurd h (by simp)

theorem remoteNewerOf_keyPreserving (localItems : LMap) :
    ∀ (q r : SPath × RemoteItem),
      (match alookup localItems q.1 with
       | some localItem =>
         if localItem.ModTime > q.2.ModTime then none
         else if localItem.ModTime < q.2.ModTime then some q
         else none
       | none => some q) = some r → r.1 = q.1 := by
  intro q r h
  rcases hl : alookup localItems q.1 with _ | l
  · simp only [hl] at h; cases h; rfl
  · simp only [hl] at h
    rcases em (l.ModTime > q.2.ModTime) with hgt | hgt
    · rw [if_pos hgt] at h; exact absurd h (by simp)
    · rw [if_neg hgt] at h
      rcases em (l.ModTime < q.2.ModTime) with hlt | hlt
      · rw [if_pos hlt] at h; cases h; rfl
      · rw [if_neg hlt] at h; exact absurd h (by simp)

theorem nodupKeys_localNewerOf {localItems : LMap} {remoteItems : RMap}
    (hL : NodupKeys localItems) (hR : NodupKeys remoteItems) :
    NodupKeys (localNewerOf localItems remoteItems) := by
  unfold localNewerOf NodupKeys akeys
  rw [List.map_append]
  refine List.Nodup.append (nodupKeys_filter _ hL)
    (nodupKeys_filterMap _ (localNewerOf_keyPreserving localItems) hR) ?_
  intro p hp1 hp2
  obtain ⟨q1, hq1mem, hq1⟩ := List.mem_map.mp hp1
  obtain ⟨q2, hq2mem, hq2⟩ := List.mem_map.mp hp2
  have h1 : (alookup remoteItems q1.1).isNone := by
    have := List.of_mem_filter hq1mem
    simpa using this
  have h2 : q2.1 ∈ akeys remoteItems := by
    have hsub := akeys_filterMap_sublist _ (localNewerOf_keyPreserving localItems) remoteItems
    exact hsub.subset (List.mem_map.mpr ⟨q2, hq2mem, rfl⟩)
  rw [hq1] at h1
  rw [hq2] at h2
  rw [Option.isNone_iff_eq_none, alookup_eq_none_iff] at h1
  exact h1 h2

theorem nodupKeys_remoteNewerOf {localItems : LMap} {remoteItems : RMap}
    (hR : NodupKeys remoteItems) :
    NodupKeys (remoteNewerOf localItems remoteItems) :=
  nodupKeys_filterMap _ (remoteNewerOf_keyPreserving localItems) hR

theorem alookup_localNewerOf (localItems : LMap) (remoteItems : RMap)
    (hL : NodupKeys localItems) (hR : NodupKeys remoteItems) (p : SPath) :
    alookup (localNewerOf localItems remoteItems) p =
      match alookup localItems p, alookup remoteItems p with
      | some l, none => some l
      | some l, some r => if l.ModTime > r.ModTime then some l else none
      | none, _ => none := by
  unfold localNewerOf
  rw [alookup_append, alookup_filter _ _ hL,
    alookup_filterMap _ (localNewerOf_keyPreserving localItems) _ hR]
  rcases ha : alookup localItems p with _ | l <;> rcases hb : alookup remoteItems p with _ | r
  · simp
  · simp [ha]
  · simp [hb]
  · simp only [hb, Option.isNone_some]
    rw [if_neg (by simp)]
    simp only [ha]
    rcases em (l.ModTime > r.ModTime) with hgt | hgt
    · rw [if_pos hgt, if_pos hgt]; rfl
    · rw [if_neg hgt, if_neg hgt]; rfl

theorem alookup_remoteNewerOf (localItems : LMap) (remoteItems : RMap)
    (hR : NodupKeys remoteItems) (p : SPath) :
    alookup (remoteNewerOf localItems remoteItems) p =
      match alookup localItems p, alookup remoteItems p with
      | none, some r => some r
      | some l, some r =>
        if l.ModTime > r.ModTime then none
        else if l.ModTime < r.ModTime then some r
        else none
      | _, none => none := by
  unfold remoteNewerOf
  rw [alookup_filterMap _ (remoteNewerOf_keyPreserving localItems) _ hR]
  rcases ha : alookup localItems p with _ | l <;> rcases hb : alookup remoteItems p with _ | r
  · rfl
  · simp [ha]
  · rfl
  · simp only [ha]
    rcases em (l.ModTime > r.ModTime) with hgt | hgt
    · rw [if_pos hgt, if_pos hgt]; rfl
    · rw [if_neg hgt, if_neg hgt]
      rcases em (l.ModTime < r.ModTime) with hlt | hlt
      · rw [if_pos hlt, if_pos hlt]; rfl
      · rw [if_neg hlt, if_neg hlt]; rfl

/-! ### The reconciler state (repository.go `compareAndSync`, lines 283-462).

The reconciler's observable effects are: mutations of the two maps, local
filesystem writes/removes, and remote-client calls.  The state below records
all of them.  Client calls other than `Delete` are modeled as succeeding (the
success path of a pass); `Delete` during garbage collection may fail, which
the code tolerates, so its success is a per-path environment parameter. -/

/-- A remote-store client call issued during a pass. -/
inductive ClientOp
  | put (path : SPath) (data : String) (fsModTime : Int)
  | get (path : SPath)
  | del (path : SPath)
  | markTombstone (path : SPath)
deriving DecidableEq

/-- A local filesystem mutation performed during a pass. -/
inductive FsOp
  | write (path : SPath) (data : String) (modTime : Int)
  | remove (path : SPath)
deriving DecidableEq

/-- The mutable state threaded through one `compareAndSync` pass. -/
structure SyncState where
  localItems : LMap
  remoteItems : RMap
  fs : Fs
  ops : List ClientOp
  fsOps : List FsOp
  changed : Bool
deriving DecidableEq

/-- Environment of a pass: per-repository configuration, the pure
collaborators (SHA-256 as a hex string, the remote blobs served by `Get`),
whether each garbage-collection `Delete` succeeds, and the current time. -/
structure SyncEnv where
  ignoreCase : Bool
  hash : String → String
  remoteContent : SPath → String
  deleteOk : SPath → Bool
  now : Int

/-- The names of the entries of a directory, derived from the file map
(models `os.ReadDir`): the next path component of every file lying under
the directory. -/
def dirEntries (fs : Fs) (dir : SPath) : List String :=
  fs.filterMap (fun q =>
    if q.1.take dir.length = dir then
      match q.1.drop dir.length with
      | c :: _ => some c
      | [] => none
    else none)

/-- Go `strings.ToLower`: lowercase every character of the string. -/
def lowerStr (s : String) : String := String.mk (s.data.map Char.toLower)

/-- Go `checkFilenameConflictIgnoringCase` (repository.go 255-280): the file
exists, and its parent directory holds an entry equal to its name
case-insensitively but not exactly. -/
def checkFilenameConflictIgnoringCase (fs : Fs) (filePath : SPath) : Bool :=
  match alookup fs filePath with
  | none => false
  | some _ =>
    match filePath.getLast? with
    | none => false
    | some targetName =>
      let parentDir := filePath.dropLast
      let entries := dirEntries fs parentDir
      let targetNameLower := lowerStr targetName
      entries.any (fun entryName =>
        lowerStr entryName == targetNameLower && entryName != targetName)

/-- The upload half of the local-wins branch: `Put` the bytes with the
on-disk modification time, then overwrite the remote record
(repository.go 359-370). -/
def uploadTo (st : SyncState) (slashPath : SPath) (localItem : FileItem)
    (data : String) (fsModTime : Int) (sha : String) : SyncState :=
  { st with
    remoteItems := aset st.remoteItems slashPath ⟨localItem.ModTime, false, sha⟩
    ops := st.ops ++ [ClientOp.put slashPath data fsModTime]
    changed := true }

/-- One iteration of the local-wins loop (repository.go 317-372): tombstones
are propagated with `MarkTombstone`; other files are stat-ed and read (a
missing file aborts the pass), the designated unreliable-modtime path is
skipped when its content hash matches the stored one, and everything else
is uploaded. -/
def applyLocalWinsItem (env : SyncEnv) (st : SyncState) (slashPath : SPath)
    (localItem : FileItem) : Except String SyncState :=
  if localItem.Tombstone then
    .ok { st with
      remoteItems := aset st.remoteItems slashPath ⟨localItem.ModTime, true, ""⟩
      ops := st.ops ++ [ClientOp.markTombstone slashPath]
      changed := true }
  else
    match alookup st.fs localItem.FilePath with
    | none => .error "failed to stat local file"
    | some f =>
      let data := f.content
      if slashPath = FETCH_HEAD then
        match alookup st.remoteItems slashPath with
        | some remoteItem =>
          if remoteItem.Tombstone = false then
            let localSHA256 := env.hash data
            if localSHA256 = remoteItem.SHA256 then
              .ok st
            else
              .ok (uploadTo st slashPath localItem data f.modTime localSHA256)
          else .ok (uploadTo st slashPath localItem data f.modTime "")
        | none => .ok (uploadTo st slashPath localItem data f.modTime "")
      else .ok (uploadTo st slashPath localItem data f.modTime "")

/-- One iteration of the remote-wins loop (repository.go 374-438): the
case-conflict skip, downloads (write bytes, set the modtime, mirror the
record into the local snapshot), and tombstone-driven local removal. -/
def applyRemoteWinsItem (env : SyncEnv) (st : SyncState) (slashPath : SPath)
    (remoteItem : RemoteItem) : SyncState :=
  if env.ignoreCase && checkFilenameConflictIgnoringCase st.fs slashPath then
    st
  else if remoteItem.Tombstone = false then
    let data := env.remoteContent slashPath
    { st with
      localItems := aset st.localItems slashPath ⟨slashPath, remoteItem.ModTime, false⟩
      fs := aset st.fs slashPath ⟨data, remoteItem.ModTime⟩
      ops := st.ops ++ [ClientOp.get slashPath]
      fsOps := st.fsOps ++ [FsOp.write slashPath data remoteItem.ModTime] }
  else
    let ex := (alookup st.fs slashPath).isSome
    { st with
      localItems := aerase st.localItems slashPath
      fs := if ex then aerase st.fs slashPath else st.fs
      fsOps := st.fsOps ++ (if ex then [FsOp.remove slashPath] else []) }

/-- One iteration of tombstone garbage collection (repository.go 441-455):
an expired tombstone gets a `Delete` call; only on success is its key
dropped and the changed flag set. -/
def gcStep (deleteOk : SPath → Bool) (now : Int) (st : SyncState)
    (q : SPath × RemoteItem) : SyncState :=
  if q.2.Tombstone = true ∧ now - q.2.ModTime > 30 * 24 * 60 * 60 then
    if deleteOk q.1 then
      { st with
        remoteItems := aerase st.remoteItems q.1
        ops := st.ops ++ [ClientOp.del q.1]
        changed := true }
    else
      { st with ops := st.ops ++ [ClientOp.del q.1] }
  else st

/-- The local-wins loop. -/
def lwFold (env : SyncEnv) (items : LMap) (st : SyncState) :
    Except String SyncState :=
  items.foldlM (fun s q => applyLocalWinsItem env s q.1 q.2) st

/-- The remote-wins loop. -/
def rwFold (env : SyncEnv) (items : RMap) (st : SyncState) : SyncState :=
  items.foldl (fun s q => applyRemoteWinsItem env s q.1 q.2) st

/-- The garbage-collection loop over a snapshot of the index. -/
def gcFold (deleteOk : SPath → Bool) (now : Int) (todo : RMap)
    (st : SyncState) : SyncState :=
  todo.foldl (gcStep deleteOk now) st

/-- Tombstone garbage collection over the current index
(repository.go 441-455). -/
def gcTombstones (deleteOk : SPath → Bool) (now : Int) (st : SyncState) :
    SyncState :=
  gcFold deleteOk now st.remoteItems st

/-- Go `compareAndSync` (repository.go 283-462).  `nil` map arguments are
modeled by `Option`; the function substitutes empty maps for them
(lines 287-292), classifies, applies local-wins then remote-wins, and
garbage-collects old tombstones.  The returned state also carries the
arguments `Finish` is then called with (`remoteItems`, `changed`). -/
def compareAndSync (env : SyncEnv) (fs : Fs) (localItemsIn : Option LMap)
    (remoteItemsIn : Option RMap) : Except String SyncState :=
  let localItems := localItemsIn.getD []
  let remoteItems := remoteItemsIn.getD []
  let localNewerItems := localNewerOf localItems remoteItems
  let remoteNewerItems := remoteNewerOf localItems remoteItems
  match lwFold env localNewerItems ⟨localItems, remoteItems, fs, [], [], false⟩ with
  | .error e => .error e
  | .ok st1 =>
    let st2 := rwFold env remoteNewerItems st1
    .ok (gcTombstones env.deleteOk env.now st2)

/-- Go `S3Client.Finish` (client source, lines 479-482): when `changed` is
false it returns immediately and writes nothing; otherwise it overwrites
the remote index blob with the serialized index. -/
def FinishWrite (remoteFiles : RMap) (changed : Bool) : Option RMap :=
  if changed = false then none else some remoteFiles

/-- Go `Repository.GetRemoteFiles` (repository.go 226-232): a `nil` map with
a `nil` error from `Client.List` is replaced by an empty map. -/
def GetRemoteFiles (listResult : Except String (Option RMap)) :
    Except String (Option RMap) :=
  match listResult with
  | .ok none => .ok (some [])
  | other => other

/-- The tombstone-synthesis loop of `Repository.Sync` (repository.go 85-99):
every non-tombstone path of the prior snapshot that is absent from the
current snapshot is inserted as a fresh tombstone record. -/
def synthesizeTombstones (now : Int) : LMap → LMap → LMap
  | [], localFiles => localFiles
  | (k, item) :: rest, localFiles =>
    synthesizeTombstones now rest
      (if item.Tombstone then localFiles
       else
         match alookup localFiles k with
         | some _ => localFiles
         | none => aset localFiles k ⟨item.FilePath, now, true⟩)

/-! ### Repository.Sync (repository.go 65-120).

The three fallible stages (local listing, remote listing, reconciliation)
are passed in as outcomes; `Sync` owns the status bookkeeping: the deferred
cleanup always clears `InProgress` and stamps `LastSync` on exit, errors are
recorded with their stage's message prefix, and `LastLocalFiles` advances
only when every stage succeeded. -/

/-- Go `SyncStatus` (sync_engine.go 17-21), with time as Unix seconds. -/
structure SyncStatus where
  LastSync : Int
  InProgress : Bool
  Error : String
deriving DecidableEq

/-- The per-repository state `Sync` reads and writes: its status and the
prior local snapshot (`nil` on first run, modeled as `none`). -/
structure RepoState where
  Status : SyncStatus
  LastLocalFiles : Option LMap
deriving DecidableEq

/-- Go `Repository.Sync` (repository.go 65-120), as a function of the
outcomes of its stages.  `getLocalResult` is the `GetLocalFiles` outcome,
`reconcile` runs `compareAndSync` on the snapshot after tombstone
synthesis. -/
def Sync (now : Int) (getLocalResult : Except String LMap)
    (getRemoteResult : Except String RMap)
    (reconcile : LMap → RMap → Except String SyncState)
    (repo : RepoState) : RepoState :=
  match getLocalResult with
  | .error e =>
    { repo with Status := ⟨now, false, "Failed to get local files: " ++ e⟩ }
  | .ok localFiles0 =>
    let localFiles :=
      synthesizeTombstones now (repo.LastLocalFiles.getD []) localFiles0
    match getRemoteResult with
    | .error e =>
      { repo with Status := ⟨now, false, "Failed to get remote files: " ++ e⟩ }
    | .ok remoteFiles =>
      match reconcile localFiles remoteFiles with
      | .error e =>
        { repo with Status := ⟨now, false, "Failed to sync files: " ++ e⟩ }
      | .ok st =>
        { Status := ⟨now, false, ""⟩, LastLocalFiles := some st.localItems }

/-! ### Request signing (S3 client source, `_s3Request`, `sign`,
`getSignatureKey`, `awsEscapePath`).

SHA-256 and HMAC-SHA256 live in the Go standard library, so they enter the
embedding as opaque function parameters; everything the repository itself
computes — the canonical request, the key-derivation chain, the string to
sign, and the authorization header — is embedded literally. -/

/-- The UTF-8 bytes of a string (Go `[]byte(s)`). -/
def strBytes (s : String) : List UInt8 := s.toUTF8.toList

/-- Go `sign(key, msg)`: HMAC-SHA256 of the message bytes under the key. -/
def sign (hmac : List UInt8 → List UInt8 → List UInt8)
    (key : List UInt8) (msg : String) : List UInt8 :=
  hmac key (strBytes msg)

/-- Go `getSignatureKey` (client source, lines 669-675). -/
def getSignatureKey (hmac : List UInt8 → List UInt8 → List UInt8)
    (secretKey dateStamp regionName serviceName : String) : List UInt8 :=
  let kDate := sign hmac (strBytes ("AWS4" ++ secretKey)) dateStamp
  let kRegion := sign hmac kDate regionName
  let kService := sign hmac kRegion serviceName
  let kSigning := sign hmac kService "aws4_request"
  kSigning

/-- One lowercase hexadecimal digit. -/
def hexDigit (n : Nat) : Char :=
  if n < 10 then Char.ofNat (48 + n) else Char.ofNat (87 + n)

/-- One uppercase hexadecimal digit. -/
def hexDigitUpper (n : Nat) : Char :=
  if n < 10 then Char.ofNat (48 + n) else Char.ofNat (55 + n)

/-- Lowercase hex encoding of a byte string (Go `hex.EncodeToString`). -/
def hexEncode (bs : List UInt8) : String :=
  String.join (bs.map (fun b =>
    String.mk [hexDigit (b.toNat / 16), hexDigit (b.toNat % 16)]))

/-- Go `noEscape` (client source, lines 692-705): the AWS unreserved set. -/
def noEscape (c : UInt8) : Bool :=
  (65 ≤ c.toNat && c.toNat ≤ 90) ||
  (97 ≤ c.toNat && c.toNat ≤ 122) ||
  (48 ≤ c.toNat && c.toNat ≤ 57) ||
  c.toNat = 45 || c.toNat = 46 || c.toNat = 95 || c.toNat = 126

/-- Go `awsEscapePath` (client source, lines 679-690): escape every byte of
the path outside the AWS unreserved set (and outside `/` unless
`encodeSep`) as `%XX`. -/
def awsEscapePath (path : String) (encodeSep : Bool) : String :=
  String.join ((strBytes path).map (fun c =>
    if noEscape c || (c.toNat = 47 && !encodeSep) then
      String.mk [Char.ofNat c.toNat]
    else
      "%" ++ String.mk [hexDigitUpper (c.toNat / 16), hexDigitUpper (c.toNat % 16)]))

/-- String-keyed map assignment, for the Go `headers` map. -/
def hset : List (String × String) → String → String → List (String × String)
  | [], k, v => [(k, v)]
  | (k0, v0) :: rest, k, v =>
    if k0 = k then (k, v) :: rest else (k0, v0) :: hset rest k v

/-- Insertion of one pair into a key-sorted pair list. -/
def insortPair (q : String × String) :
    List (String × String) → List (String × String)
  | [] => [q]
  | x :: xs => if q.1 ≤ x.1 then q :: x :: xs else x :: insortPair q xs

/-- Sort a pair list by key (models Go `sort.Slice` with a key comparison,
as used for both query pairs and header pairs). -/
def sortByKey (l : List (String × String)) : List (String × String) :=
  l.foldr insortPair []

/-- The authorization-header computation of `_s3Request` (client source,
lines 532-629), from the request description and the two timestamps the
code formats from the current UTC time.  `pathEscapeQ` stands for Go
stdlib `url.PathEscape`, applied to query keys and values. -/
def s3AuthorizationHeader (hmac : List UInt8 → List UInt8 → List UInt8)
    (sha256hex : List UInt8 → String) (pathEscapeQ : String → String)
    (method uriPath : String) (query : List (String × String))
    (payload : List UInt8) (awsAccessKey awsSecretKey region host : String)
    (extraHeaders : List (String × String)) (amzDate dateStamp : String) :
    String :=
  let canonicalURI := awsEscapePath uriPath false
  let queryPairs :=
    sortByKey (query.map (fun kv => (pathEscapeQ kv.1, pathEscapeQ kv.2)))
  let canonicalQueryString :=
    String.intercalate "&" (queryPairs.map (fun pair => pair.1 ++ "=" ++ pair.2))
  let payloadHashHex := sha256hex payload
  let headers1 :=
    hset (hset (hset extraHeaders "host" host)
      "x-amz-content-sha256" payloadHashHex) "x-amz-date" amzDate
  let headersWithLowerKey :=
    sortByKey (headers1.map (fun h => (h.1.toLower, h.2.trim)))
  let canonicalHeaders :=
    String.join (headersWithLowerKey.map (fun h => h.1 ++ ":" ++ h.2 ++ "\n"))
  let signedHeaders :=
    String.intercalate ";" (headersWithLowerKey.map Prod.fst)
  let canonicalRequest := String.intercalate "\n"
    [method, canonicalURI, canonicalQueryString, canonicalHeaders,
     signedHeaders, payloadHashHex]
  let canonicalRequestHashHex := sha256hex (strBytes canonicalRequest)
  let algorithm := "AWS4-HMAC-SHA256"
  let credentialScope := dateStamp ++ "/" ++ region ++ "/" ++ "s3" ++ "/aws4_request"
  let signingKey := getSignatureKey hmac awsSecretKey dateStamp region "s3"
  let signature := hexEncode (sign hmac signingKey (String.intercalate "\n"
    [algorithm, amzDate, credentialScope, canonicalRequestHashHex]))
  algorithm ++ " Credential=" ++ awsAccessKey ++ "/" ++ credentialScope ++
    ",SignedHeaders=" ++ signedHeaders ++ ",Signature=" ++ signature

/-- Modelled from the spec (§4.3 authentication protocol): the reference
signing computation, phrased as the specification words it — explicit
HMAC chaining for the key, explicit newline concatenation for the string to
sign, and the literal authorization-header format. -/
def specAuthorizationHeader (hmac : List UInt8 → List UInt8 → List UInt8)
    (sha256hex : List UInt8 → String) (pathEscapeQ : String → String)
    (method uriPath : String) (query : List (String × String))
    (payload : List UInt8) (awsAccessKey awsSecretKey region host : String)
    (extraHeaders : List (String × String)) (amzDate dateStamp : String) :
    String :=
  let canonicalURI := awsEscapePath uriPath false
  let queryPairs :=
    sortByKey (query.map (fun kv => (pathEscapeQ kv.1, pathEscapeQ kv.2)))
  let canonicalQueryString :=
    String.intercalate "&" (queryPairs.map (fun pair => pair.1 ++ "=" ++ pair.2))
  let payloadHashHex := sha256hex payload
  let headers1 :=
    hset (hset (hset extraHeaders "host" host)
      "x-amz-content-sha256" payloadHashHex) "x-amz-date" amzDate
  let headersWithLowerKey :=
    sortByKey (headers1.map (fun h => (h.1.toLower, h.2.trim)))
  let canonicalHeaders :=
    String.join (headersWithLowerKey.map (fun h => h.1 ++ ":" ++ h.2 ++ "\n"))
  let signedHeaders :=
    String.intercalate ";" (headersWithLowerKey.map Prod.fst)
  let canonicalRequest :=
    method ++ "\n" ++ canonicalURI ++ "\n" ++ canonicalQueryString ++ "\n" ++
      canonicalHeaders ++ "\n" ++ signedHeaders ++ "\n" ++ payloadHashHex
  let credentialScope := dateStamp ++ "/" ++ region ++ "/s3/aws4_request"
  let signingKey :=
    hmac (hmac (hmac (hmac (strBytes ("AWS4" ++ awsSecretKey))
      (strBytes dateStamp)) (strBytes region)) (strBytes "s3"))
      (strBytes "aws4_request")
  let stringToSign := "AWS4-HMAC-SHA256" ++ "\n" ++ amzDate ++ "\n" ++
    credentialScope ++ "\n" ++ sha256hex (strBytes canonicalRequest)
  let signature := hexEncode (hmac signingKey (strBytes stringToSign))
  "AWS4-HMAC-SHA256 Credential=" ++ awsAccessKey ++ "/" ++ credentialScope ++
    ",SignedHeaders=" ++ signedHeaders ++ ",Signature=" ++ signature

theorem intercalateGo_eq_foldl (a s : String) (l : List String) :
    String.intercalate.go a s l = l.foldl (fun acc x => acc ++ s ++ x) a := by
  induction l generalizing a with
  | nil => rfl
  | cons hd tl ih => rw [String.intercalate.go, ih, List.foldl_cons]

theorem intercalate_four (s a b c d : String) :
    String.intercalate s [a, b, c, d] = a ++ s ++ b ++ s ++ c ++ s ++ d := by
  show String.intercalate.go a s [b, c, d] = _
  rw [intercalateGo_eq_foldl]
  rfl

theorem intercalate_six (s a b c d e f : String) :
    String.intercalate s [a, b, c, d, e, f] =
      a ++ s ++ b ++ s ++ c ++ s ++ d ++ s ++ e ++ s ++ f := by
  show String.intercalate.go a s [b, c, d, e, f] = _
  rw [intercalateGo_eq_foldl]
  rfl

/-! ### Characterization of the local-wins loop -/

/-- The effect of one local-wins iteration on the remote record of its own
path, as a function of the record and local file found at processing time:
`none` encodes the pass-aborting stat failure, `some v` the resulting
record (where `v = rOld` means the iteration was a skip). -/
def lwOutcome (env : SyncEnv) (p : SPath) (l : FileItem)
    (rOld : Option RemoteItem) (fsv : Option FsFile) : Option (Option RemoteItem) :=
  if l.Tombstone then some (some ⟨l.ModTime, true, ""⟩)
  else
    match fsv with
    | none => none
    | some f =>
      if p = FETCH_HEAD then
        match rOld with
        | some r =>
          if r.Tombstone = false then
            if env.hash f.content = r.SHA256 then some rOld
            else some (some ⟨l.ModTime, false, env.hash f.content⟩)
          else some (some ⟨l.ModTime, false, ""⟩)
        | none => some (some ⟨l.ModTime, false, ""⟩)
      else some (some ⟨l.ModTime, false, ""⟩)

theorem applyLocalWinsItem_ok (env : SyncEnv) (st : SyncState) (p : SPath)
    (l : FileItem) (st' : SyncState)
    (h : applyLocalWinsItem env st p l = .ok st') :
    st'.localItems = st.localItems ∧ st'.fs = st.fs ∧ st'.fsOps = st.fsOps ∧
    lwOutcome env p l (alookup st.remoteItems p) (alookup st.fs l.FilePath)
      = some (alookup st'.remoteItems p) ∧
    (∀ q, q ≠ p → alookup st'.remoteItems q = alookup st.remoteItems q) ∧
    (NodupKeys st.remoteItems → NodupKeys st'.remoteItems) := by
  unfold applyLocalWinsItem at h
  unfold lwOutcome
  by_cases hT : l.Tombstone
  · rw [if_pos hT] at h
    rw [if_pos hT]
    obtain rfl : _ = st' := Except.ok.injEq .. ▸ h
    refine ⟨rfl, rfl, rfl, ?_, ?_, ?_⟩
    · show _ = some (alookup (aset st.remoteItems p _) p)
      rw [alookup_aset, if_pos rfl]
    · intro q hq
      show alookup (aset st.remoteItems p _) q = _
      rw [alookup_aset, if_neg (Ne.symm hq)]
    · intro hnd
      exact nodupKeys_aset hnd _ _
  · rw [if_neg hT] at h
    rw [if_neg hT]
    rcases hfs : alookup st.fs l.FilePath with _ | f
    · simp only [hfs] at h
      exact absurd h (by simp)
    · simp only [hfs] at h ⊢
      have huop : ∀ sha,
          st' = uploadTo st p l f.content f.modTime sha →
          st'.localItems = st.localItems ∧ st'.fs = st.fs ∧ st'.fsOps = st.fsOps ∧
          some (some (⟨l.ModTime, false, sha⟩ : RemoteItem))
            = some (alookup st'.remoteItems p) ∧
          (∀ q, q ≠ p → alookup st'.remoteItems q = alookup st.remoteItems q) ∧
          (NodupKeys st.remoteItems → NodupKeys st'.remoteItems) := by
        intro sha hst
        subst hst
        refine ⟨rfl, rfl, rfl, ?_, ?_, ?_⟩
        · show _ = some (alookup (aset st.remoteItems p _) p)
          rw [alookup_aset, if_pos rfl]
        · intro q hq
          show alookup (aset st.remoteItems p _) q = _
          rw [alookup_aset, if_neg (Ne.symm hq)]
        · intro hnd
          exact nodupKeys_aset hnd _ _
      by_cases hFH : p = FETCH_HEAD
      · rw [if_pos hFH] at h ⊢
        rcases hrem : alookup st.remoteItems p with _ | r
        · simp only [hrem] at h ⊢
          exact huop "" (Except.ok.injEq .. ▸ h).symm
        · simp only [hrem] at h ⊢
          by_cases hrT : r.Tombstone = false
          · rw [if_pos hrT] at h ⊢
            by_cases hsha : env.hash f.content = r.SHA256
            · rw [if_pos hsha] at h ⊢
              obtain rfl : st = st' := Except.ok.injEq .. ▸ h
              exact ⟨rfl, rfl, rfl, by rw [hrem], fun q _ => rfl, fun hnd => hnd⟩
            · rw [if_neg hsha] at h ⊢
              exact huop (env.hash f.content) (Except.ok.injEq .. ▸ h).symm
          · rw [if_neg hrT] at h ⊢
            exact huop "" (Except.ok.injEq .. ▸ h).symm
      · rw [if_neg hFH] at h ⊢
        exact huop "" (Except.ok.injEq .. ▸ h).symm

theorem lwFold_nil (env : SyncEnv) (st : SyncState) :
    lwFold env [] st = .ok st := rfl

theorem lwFold_cons (env : SyncEnv) (q : SPath × FileItem) (rest : LMap)
    (st : SyncState) :
    lwFold env (q :: rest) st =
      match applyLocalWinsItem env st q.1 q.2 with
      | .error e => .error e
      | .ok st1 => lwFold env rest st1 := by
  show List.foldlM _ st (q :: rest) = _
  rw [List.foldlM_cons]
  cases applyLocalWinsItem env st q.1 q.2 <;> rfl

theorem lwFold_frame (env : SyncEnv) (items : LMap) (st st' : SyncState)
    (h : lwFold env items st = .ok st') :
    st'.localItems = st.localItems ∧ st'.fs = st.fs ∧ st'.fsOps = st.fsOps ∧
    (NodupKeys st.remoteItems → NodupKeys st'.remoteItems) := by
  induction items generalizing st with
  | nil => cases Except.ok.injEq .. ▸ (lwFold_nil env st ▸ h); exact ⟨rfl, rfl, rfl, id⟩
  | cons q rest ih =>
    rw [lwFold_cons] at h
    rcases hstep : applyLocalWinsItem env st q.1 q.2 with e | st1
    · rw [hstep] at h; exact absurd h (by simp)
    · rw [hstep] at h
      obtain ⟨h1, h2, h3, _, _, h6⟩ := applyLocalWinsItem_ok env st q.1 q.2 st1 hstep
      obtain ⟨g1, g2, g3, g6⟩ := ih st1 h
      exact ⟨g1.trans h1, g2.trans h2, g3.trans h3, fun hnd => g6 (h6 hnd)⟩

theorem lwFold_lookup_of_notMem (env : SyncEnv) (items : LMap)
    (st st' : SyncState) (p : SPath) (h : lwFold env items st = .ok st')
    (hp : alookup items p = none) :
    alookup st'.remoteItems p = alookup st.remoteItems p := by
  induction items generalizing st with
  | nil => cases Except.ok.injEq .. ▸ (lwFold_nil env st ▸ h); rfl
  | cons q rest ih =>
    obtain ⟨k, l⟩ := q
    rw [alookup_cons] at hp
    by_cases hk : k = p
    · rw [if_pos hk] at hp; exact absurd hp (by simp)
    · rw [if_neg hk] at hp
      rw [lwFold_cons] at h
      rcases hstep : applyLocalWinsItem env st k l with e | st1
      · rw [hstep] at h; exact absurd h (by simp)
      · rw [hstep] at h
        obtain ⟨_, _, _, _, h5, _⟩ := applyLocalWinsItem_ok env st k l st1 hstep
        rw [ih st1 h hp, h5 p (Ne.symm hk)]

theorem lwFold_lookup_of_mem (env : SyncEnv) (items : LMap)
    (st st' : SyncState) (p : SPath) (l : FileItem)
    (hnd : NodupKeys items) (h : lwFold env items st = .ok st')
    (hp : alookup items p = some l) :
    lwOutcome env p l (alookup st.remoteItems p) (alookup st.fs l.FilePath)
      = some (alookup st'.remoteItems p) := by
  induction items generalizing st with
  | nil => exact absurd hp (by simp [alookup_nil])
  | cons q rest ih =>
    obtain ⟨k, w⟩ := q
    obtain ⟨hknot, hnd'⟩ := nodupKeys_cons hnd
    rw [lwFold_cons] at h
    rcases hstep : applyLocalWinsItem env st k w with e | st1
    · rw [hstep] at h; exact absurd h (by simp)
    · rw [hstep] at h
      obtain ⟨_, hfs1, _, h4, h5, _⟩ := applyLocalWinsItem_ok env st k w st1 hstep
      rw [alookup_cons] at hp
      by_cases hk : k = p
      · subst hk
        rw [if_pos rfl] at hp
        obtain rfl : w = l := Option.some.injEq .. ▸ hp
        have hrest : alookup rest k = none := alookup_eq_none_of_notMem hknot
        rw [lwFold_lookup_of_notMem env rest st1 st' k h hrest]
        exact h4
      · rw [if_neg hk] at hp
        have := ih st1 hnd' h hp
        rw [h5 p (Ne.symm hk), hfs1] at this
        exact this

theorem lwFold_identity (env : SyncEnv) (items : LMap) (st : SyncState)
    (h : ∀ q ∈ items, applyLocalWinsItem env st q.1 q.2 = .ok st) :
    lwFold env items st = .ok st := by
  induction items with
  | nil => rfl
  | cons q rest ih =>
    rw [lwFold_cons, h q (List.mem_cons_self q rest)]
    exact ih (fun q2 hq2 => h q2 (List.mem_cons_of_mem q hq2))

/-! ### Characterization of the remote-wins loop -/

theorem applyRemoteWinsItem_frame (env : SyncEnv) (st : SyncState) (p : SPath)
    (r : RemoteItem) :
    (applyRemoteWinsItem env st p r).remoteItems = st.remoteItems ∧
    (applyRemoteWinsItem env st p r).changed = st.changed ∧
    (∀ q, q ≠ p → alookup (applyRemoteWinsItem env st p r).localItems q
        = alookup st.localItems q ∧
      alookup (applyRemoteWinsItem env st p r).fs q = alookup st.fs q) ∧
    (NodupKeys st.localItems → NodupKeys (applyRemoteWinsItem env st p r).localItems) ∧
    (NodupKeys st.fs → NodupKeys (applyRemoteWinsItem env st p r).fs) := by
  unfold applyRemoteWinsItem
  by_cases hc : (env.ignoreCase && checkFilenameConflictIgnoringCase st.fs p) = true
  · rw [if_pos hc]
    exact ⟨rfl, rfl, fun q _ => ⟨rfl, rfl⟩, id, id⟩
  · rw [if_neg hc]
    by_cases hrT : r.Tombstone = false
    · rw [if_pos hrT]
      refine ⟨rfl, rfl, fun q hq => ?_, fun h => nodupKeys_aset h _ _,
        fun h => nodupKeys_aset h _ _⟩
      constructor
      · show alookup (aset st.localItems p _) q = _
        rw [alookup_aset, if_neg (Ne.symm hq)]
      · show alookup (aset st.fs p _) q = _
        rw [alookup_aset, if_neg (Ne.symm hq)]
    · rw [if_neg hrT]
      refine ⟨rfl, rfl, fun q hq => ?_, fun h => nodupKeys_aerase h _, fun h => ?_⟩
      · constructor
        · show alookup (aerase st.localItems p) q = _
          rw [alookup_aerase_ne st.localItems p q (Ne.symm hq)]
        · show alookup (if (alookup st.fs p).isSome then aerase st.fs p else st.fs) q = _
          by_cases hex : (alookup st.fs p).isSome
          · rw [if_pos hex, alookup_aerase_ne st.fs p q (Ne.symm hq)]
          · rw [if_neg hex]
      · show NodupKeys (if (alookup st.fs p).isSome then aerase st.fs p else st.fs)
        by_cases hex : (alookup st.fs p).isSome
        · rw [if_pos hex]; exact nodupKeys_aerase h _
        · rw [if_neg hex]; exact h

theorem applyRemoteWinsItem_ownKey (env : SyncEnv) (st : SyncState) (p : SPath)
    (r : RemoteItem) (hIC : env.ignoreCase = false)
    (hndL : NodupKeys st.localItems) (hndF : NodupKeys st.fs) :
    alookup (applyRemoteWinsItem env st p r).localItems p
      = (if r.Tombstone = true then none else some ⟨p, r.ModTime, false⟩) ∧
    alookup (applyRemoteWinsItem env st p r).fs p
      = (if r.Tombstone = true then none
         else some ⟨env.remoteContent p, r.ModTime⟩) := by
  unfold applyRemoteWinsItem
  rw [if_neg (by rw [hIC]; simp)]
  by_cases hrT : r.Tombstone = false
  · rw [if_pos hrT, if_neg (by simp [hrT]), if_neg (by simp [hrT])]
    constructor
    · show alookup (aset st.localItems p _) p = _
      rw [alookup_aset, if_pos rfl]
    · show alookup (aset st.fs p _) p = _
      rw [alookup_aset, if_pos rfl]
  · have hrT' : r.Tombstone = true := by
      rcases hb : r.Tombstone with _ | _
      · exact absurd hb hrT
      · rfl
    rw [if_neg hrT, if_pos hrT', if_pos hrT']
    constructor
    · show alookup (aerase st.localItems p) p = _
      rw [alookup_aerase_self st.localItems p hndL]
    · show alookup (if (alookup st.fs p).isSome then aerase st.fs p else st.fs) p = _
      by_cases hex : (alookup st.fs p).isSome
      · rw [if_pos hex, alookup_aerase_self st.fs p hndF]
      · rw [if_neg hex]
        exact Option.not_isSome_iff_eq_none.mp hex

theorem rwFold_nil (env : SyncEnv) (st : SyncState) : rwFold env [] st = st := rfl

theorem rwFold_cons (env : SyncEnv) (q : SPath × RemoteItem) (rest : RMap)
    (st : SyncState) :
    rwFold env (q :: rest) st = rwFold env rest (applyRemoteWinsItem env st q.1 q.2) :=
  rfl

theorem rwFold_frame (env : SyncEnv) (items : RMap) (st : SyncState) :
    (rwFold env items st).remoteItems = st.remoteItems ∧
    (rwFold env items st).changed = st.changed ∧
    (NodupKeys st.localItems → NodupKeys (rwFold env items st).localItems) ∧
    (NodupKeys st.fs → NodupKeys (rwFold env items st).fs) := by
  induction items generalizing st with
  | nil => exact ⟨rfl, rfl, id, id⟩
  | cons q rest ih =>
    rw [rwFold_cons]
    obtain ⟨h1, h2, _, h4, h5⟩ := applyRemoteWinsItem_frame env st q.1 q.2
    obtain ⟨g1, g2, g3, g4⟩ := ih (applyRemoteWinsItem env st q.1 q.2)
    exact ⟨g1.trans h1, g2.trans h2, fun h => g3 (h4 h), fun h => g4 (h5 h)⟩

theorem rwFold_lookup (env : SyncEnv) (items : RMap) (st : SyncState) (p : SPath)
    (hIC : env.ignoreCase = false) (hnd : NodupKeys items)
    (hndL : NodupKeys st.localItems) (hndF : NodupKeys st.fs) :
    alookup (rwFold env items st).localItems p
      = (match alookup items p with
         | some r => if r.Tombstone = true then none else some ⟨p, r.ModTime, false⟩
         | none => alookup st.localItems p) ∧
    alookup (rwFold env items st).fs p
      = (match alookup items p with
         | some r => if r.Tombstone = true then none
             else some ⟨env.remoteContent p, r.ModTime⟩
         | none => alookup st.fs p) := by
  induction items generalizing st with
  | nil => exact ⟨rfl, rfl⟩
  | cons q rest ih =>
    obtain ⟨k, r⟩ := q
    obtain ⟨hknot, hnd'⟩ := nodupKeys_cons hnd
    rw [rwFold_cons]
    obtain ⟨_, _, hother, hpl, hpf⟩ := applyRemoteWinsItem_frame env st k r
    have ihst := ih (applyRemoteWinsItem env st k r) hnd' (hpl hndL) (hpf hndF)
    rw [alookup_cons]
    by_cases hk : k = p
    · subst hk
      rw [if_pos rfl]
      have hrest : alookup rest k = none := alookup_eq_none_of_notMem hknot
      rw [hrest] at ihst
      obtain ⟨i1, i2⟩ := ihst
      obtain ⟨o1, o2⟩ := applyRemoteWinsItem_ownKey env st k r hIC hndL hndF
      rw [i1, i2, o1, o2]
      exact ⟨rfl, rfl⟩
    · rw [if_neg hk]
      obtain ⟨i1, i2⟩ := ihst
      rw [i1, i2]
      obtain ⟨o1, o2⟩ := hother p (Ne.symm hk)
      rcases hr : alookup rest p with _ | r2
      · exact ⟨o1, o2⟩
      · exact ⟨rfl, rfl⟩

theorem rwFold_identity (env : SyncEnv) (items : RMap) (st : SyncState)
    (h : ∀ q ∈ items, applyRemoteWinsItem env st q.1 q.2 = st) :
    rwFold env items st = st := by
  induction items with
  | nil => rfl
  | cons q rest ih =>
    rw [rwFold_cons, h q (List.mem_cons_self q rest)]
    exact ih (fun q2 hq2 => h q2 (List.mem_cons_of_mem q hq2))

/-! ### Characterization of tombstone garbage collection -/

theorem gcStep_frame (deleteOk : SPath → Bool) (now : Int) (st : SyncState)
    (q : SPath × RemoteItem) :
    (gcStep deleteOk now st q).localItems = st.localItems ∧
    (gcStep deleteOk now st q).fs = st.fs ∧
    (gcStep deleteOk now st q).fsOps = st.fsOps ∧
    (NodupKeys st.remoteItems → NodupKeys (gcStep deleteOk now st q).remoteItems) ∧
    (∀ p, p ≠ q.1 →
      alookup (gcStep deleteOk now st q).remoteItems p = alookup st.remoteItems p) := by
  unfold gcStep
  by_cases hexp : q.2.Tombstone = true ∧ now - q.2.ModTime > 30 * 24 * 60 * 60
  · rw [if_pos hexp]
    by_cases hok : deleteOk q.1 = true
    · rw [if_pos hok]
      exact ⟨rfl, rfl, rfl, fun h => nodupKeys_aerase h _,
        fun p hp => alookup_aerase_ne _ _ _ (Ne.symm hp)⟩
    · rw [if_neg hok]
      exact ⟨rfl, rfl, rfl, id, fun p _ => rfl⟩
  · rw [if_neg hexp]
    exact ⟨rfl, rfl, rfl, id, fun p _ => rfl⟩

theorem gcFold_nil (deleteOk : SPath → Bool) (now : Int) (st : SyncState) :
    gcFold deleteOk now [] st = st := rfl

theorem gcFold_cons (deleteOk : SPath → Bool) (now : Int) (q : SPath × RemoteItem)
    (rest : RMap) (st : SyncState) :
    gcFold deleteOk now (q :: rest) st =
      gcFold deleteOk now rest (gcStep deleteOk now st q) := rfl

theorem gcFold_frame (deleteOk : SPath → Bool) (now : Int) (todo : RMap)
    (st : SyncState) :
    (gcFold deleteOk now todo st).localItems = st.localItems ∧
    (gcFold deleteOk now todo st).fs = st.fs ∧
    (gcFold deleteOk now todo st).fsOps = st.fsOps ∧
    (NodupKeys st.remoteItems → NodupKeys (gcFold deleteOk now todo st).remoteItems) := by
  induction todo generalizing st with
  | nil => exact ⟨rfl, rfl, rfl, id⟩
  | cons q rest ih =>
    rw [gcFold_cons]
    obtain ⟨h1, h2, h3, h4, _⟩ := gcStep_frame deleteOk now st q
    obtain ⟨g1, g2, g3, g4⟩ := ih (gcStep deleteOk now st q)
    exact ⟨g1.trans h1, g2.trans h2, g3.trans h3, fun h => g4 (h4 h)⟩

theorem gcFold_lookup (deleteOk : SPath → Bool) (now : Int) (todo : RMap)
    (st : SyncState) (p : SPath) (hnd : NodupKeys todo)
    (hndR : NodupKeys st.remoteItems) :
    alookup (gcFold deleteOk now todo st).remoteItems p =
      match alookup todo p with
      | some r =>
        if r.Tombstone = true ∧ now - r.ModTime > 30 * 24 * 60 * 60 then
          (if deleteOk p = true then none else alookup st.remoteItems p)
        else alookup st.remoteItems p
      | none => alookup st.remoteItems p := by
  induction todo generalizing st with
  | nil => rfl
  | cons q rest ih =>
    obtain ⟨k, r⟩ := q
    obtain ⟨hknot, hnd'⟩ := nodupKeys_cons hnd
    rw [gcFold_cons]
    obtain ⟨_, _, _, hpres, hother⟩ := gcStep_frame deleteOk now st (k, r)
    have ihst := ih (gcStep deleteOk now st (k, r)) hnd' (hpres hndR)
    by_cases hk : k = p
    · subst hk
      have hrest : alookup rest k = none := alookup_eq_none_of_notMem hknot
      simp only [hrest] at ihst
      rw [ihst, alookup_cons]
      have hred : (match (if k = k then some r else alookup rest k) with
          | some r =>
            if r.Tombstone = true ∧ now - r.ModTime > 30 * 24 * 60 * 60 then
              (if deleteOk k = true then none else alookup st.remoteItems k)
            else alookup st.remoteItems k
          | none => alookup st.remoteItems k) =
          (if r.Tombstone = true ∧ now - r.ModTime > 30 * 24 * 60 * 60 then
            (if deleteOk k = true then none else alookup st.remoteItems k)
          else alookup st.remoteItems k) := by
        rw [if_pos rfl]
      rw [hred]
      unfold gcStep
      by_cases hexp : r.Tombstone = true ∧ now - r.ModTime > 30 * 24 * 60 * 60
      · rw [if_pos (show (k, r).2.Tombstone = true ∧
            now - (k, r).2.ModTime > 30 * 24 * 60 * 60 from hexp), if_pos hexp]
        by_cases hok : deleteOk k = true
        · rw [if_pos hok, if_pos hok]
          exact alookup_aerase_self _ _ hndR
        · rw [if_neg hok, if_neg hok]
      · rw [if_neg (show ¬((k, r).2.Tombstone = true ∧
            now - (k, r).2.ModTime > 30 * 24 * 60 * 60) from hexp), if_neg hexp]
    · rw [ihst, alookup_cons, if_neg hk, hother p (Ne.symm hk)]

theorem gcFold_ops (deleteOk : SPath → Bool) (now : Int) (todo : RMap)
    (st : SyncState) (p : SPath) :
    ClientOp.del p ∈ (gcFold deleteOk now todo st).ops ↔
      (ClientOp.del p ∈ st.ops ∨
        ∃ r, (p, r) ∈ todo ∧ r.Tombstone = true ∧
          now - r.ModTime > 30 * 24 * 60 * 60) := by
  induction todo generalizing st with
  | nil =>
    rw [gcFold_nil]
    constructor
    · exact Or.inl
    · rintro (h | ⟨r, hmem, _⟩)
      · exact h
      · exact absurd hmem (by simp)
  | cons q rest ih =>
    obtain ⟨k, r⟩ := q
    rw [gcFold_cons, ih]
    have hstep : ClientOp.del p ∈ (gcStep deleteOk now st (k, r)).ops ↔
        (ClientOp.del p ∈ st.ops ∨
          (p = k ∧ r.Tombstone = true ∧ now - r.ModTime > 30 * 24 * 60 * 60)) := by
      unfold gcStep
      by_cases hexp : (k, r).2.Tombstone = true ∧ now - (k, r).2.ModTime > 30 * 24 * 60 * 60
      · rw [if_pos hexp]
        by_cases hok : deleteOk k = true
        · rw [if_pos hok]
          show ClientOp.del p ∈ st.ops ++ [ClientOp.del k] ↔ _
          simp only [List.mem_append, List.mem_singleton]
          constructor
          · rintro (h | h)
            · exact Or.inl h
            · exact Or.inr ⟨(ClientOp.del.injEq .. ▸ h : p = k), hexp.1, hexp.2⟩
          · rintro (h | ⟨rfl, _, _⟩)
            · exact Or.inl h
            · exact Or.inr rfl
        · rw [if_neg hok]
          show ClientOp.del p ∈ st.ops ++ [ClientOp.del k] ↔ _
          simp only [List.mem_append, List.mem_singleton]
          constructor
          · rintro (h | h)
            · exact Or.inl h
            · exact Or.inr ⟨(ClientOp.del.injEq .. ▸ h : p = k), hexp.1, hexp.2⟩
          · rintro (h | ⟨rfl, _, _⟩)
            · exact Or.inl h
            · exact Or.inr rfl
      · rw [if_neg hexp]
        constructor
        · exact Or.inl
        · rintro (h | ⟨rfl, h1, h2⟩)
          · exact h
          · exact absurd ⟨h1, h2⟩ hexp
    rw [hstep]
    constructor
    · rintro ((h | ⟨rfl, h1, h2⟩) | ⟨r2, hmem, h1, h2⟩)
      · exact Or.inl h
      · exact Or.inr ⟨r, List.mem_cons_self _ _, h1, h2⟩
      · exact Or.inr ⟨r2, List.mem_cons_of_mem _ hmem, h1, h2⟩
    · rintro (h | ⟨r2, hmem, h1, h2⟩)
      · exact Or.inl (Or.inl h)
      · rcases List.mem_cons.mp hmem with heq | hmem2
        · obtain ⟨rfl, rfl⟩ := Prod.mk.injEq .. ▸ heq
          exact Or.inl (Or.inr ⟨rfl, h1, h2⟩)
        · exact Or.inr ⟨r2, hmem2, h1, h2⟩

theorem gcFold_changed (deleteOk : SPath → Bool) (now : Int) (todo : RMap)
    (st : SyncState) :
    (gcFold deleteOk now todo st).changed = true ↔
      (st.changed = true ∨
        ∃ q, q ∈ todo ∧ q.2.Tombstone = true ∧
          now - q.2.ModTime > 30 * 24 * 60 * 60 ∧ deleteOk q.1 = true) := by
  induction todo generalizing st with
  | nil =>
    rw [gcFold_nil]
    constructor
    · exact Or.inl
    · rintro (h | ⟨q, hmem, _⟩)
      · exact h
      · exact absurd hmem (by simp)
  | cons q rest ih =>
    rw [gcFold_cons, ih]
    have hstep : (gcStep deleteOk now st q).changed = true ↔
        (st.changed = true ∨
          (q.2.Tombstone = true ∧ now - q.2.ModTime > 30 * 24 * 60 * 60 ∧
            deleteOk q.1 = true)) := by
      unfold gcStep
      by_cases hexp : q.2.Tombstone = true ∧ now - q.2.ModTime > 30 * 24 * 60 * 60
      · rw [if_pos hexp]
        by_cases hok : deleteOk q.1 = true
        · rw [if_pos hok]
          constructor
          · intro _
            exact Or.inr ⟨hexp.1, hexp.2, hok⟩
          · intro _
            rfl
        · rw [if_neg hok]
          simp only []
          constructor
          · exact Or.inl
          · rintro (h | ⟨_, _, h3⟩)
            · exact h
            · exact absurd h3 hok
      · rw [if_neg hexp]
        constructor
        · exact Or.inl
        · rintro (h | ⟨h1, h2, _⟩)
          · exact h
          · exact absurd ⟨h1, h2⟩ hexp
    rw [hstep]
    constructor
    · rintro ((h | h) | ⟨q2, hmem, hq2⟩)
      · exact Or.inl h
      · exact Or.inr ⟨q, List.mem_cons_self _ _, h⟩
      · exact Or.inr ⟨q2, List.mem_cons_of_mem _ hmem, hq2⟩
    · rintro (h | ⟨q2, hmem, hq2⟩)
      · exact Or.inl (Or.inl h)
      · rcases List.mem_cons.mp hmem with heq | hmem2
        · subst heq
          exact Or.inl (Or.inr hq2)
        · exact Or.inr ⟨q2, hmem2, hq2⟩

theorem gcFold_identity (deleteOk : SPath → Bool) (now : Int) (todo : RMap)
    (st : SyncState)
    (h : ∀ q ∈ todo, ¬(q.2.Tombstone = true ∧ now - q.2.ModTime > 30 * 24 * 60 * 60)) :
    gcFold deleteOk now todo st = st := by
  induction todo with
  | nil => rfl
  | cons q rest ih =>
    rw [gcFold_cons]
    have hq : gcStep deleteOk now st q = st := by
      unfold gcStep
      rw [if_neg (h q (List.mem_cons_self q rest))]
    rw [hq]
    exact ih (fun q2 hq2 => h q2 (List.mem_cons_of_mem q hq2))

/-! ### Claim theorems -/

/-- C1: for every local snapshot and remote index, the classification step
puts each path of the union into exactly one bucket: local-only paths are
local-wins, remote-only paths are remote-wins, and both-present paths go by
strict `ModTime` comparison, with equality yielding neither bucket. -/
theorem reconciler_classification (L : LMap) (R : RMap)
    (hL : NodupKeys L) (hR : NodupKeys R) (p : SPath) :
    (∀ l, alookup L p = some l → alookup R p = none →
      alookup (localNewerOf L R) p = some l ∧
      alookup (remoteNewerOf L R) p = none) ∧
    (∀ r, alookup R p = some r → alookup L p = none →
      alookup (remoteNewerOf L R) p = some r ∧
      alookup (localNewerOf L R) p = none) ∧
    (∀ l r, alookup L p = some l → alookup R p = some r →
      (l.ModTime > r.ModTime →
        alookup (localNewerOf L R) p = some l ∧
        alookup (remoteNewerOf L R) p = none) ∧
      (l.ModTime < r.ModTime →
        alookup (remoteNewerOf L R) p = some r ∧
        alookup (localNewerOf L R) p = none) ∧
      (l.ModTime = r.ModTime →
        alookup (localNewerOf L R) p = none ∧
        alookup (remoteNewerOf L R) p = none)) := by
  have hlw := alookup_localNewerOf L R hL hR p
  have hrw := alookup_remoteNewerOf L R hR p
  refine ⟨?_, ?_, ?_⟩
  · intro l ha hb
    simp only [ha, hb] at hlw hrw
    exact ⟨hlw, hrw⟩
  · intro r hb ha
    simp only [ha, hb] at hlw hrw
    exact ⟨hrw, hlw⟩
  · intro l r ha hb
    simp only [ha, hb] at hlw hrw
    refine ⟨?_, ?_, ?_⟩
    · intro hgt
      rw [if_pos hgt] at hlw hrw
      exact ⟨hlw, hrw⟩
    · intro hlt
      have hgt : ¬ l.ModTime > r.ModTime := not_lt_of_gt hlt
      rw [if_neg hgt] at hlw hrw
      rw [if_pos hlt] at hrw
      exact ⟨hrw, hlw⟩
    · intro heq
      have hgt : ¬ l.ModTime > r.ModTime := by rw [heq]; exact lt_irrefl _
      have hlt : ¬ l.ModTime < r.ModTime := by rw [heq]; exact lt_irrefl _
      rw [if_neg hgt] at hlw hrw
      rw [if_neg hlt] at hrw
      exact ⟨hlw, hrw⟩

/-- An example local snapshot for evaluating the classification. -/
def exL : LMap := [(["a"], ⟨["a"], 5, false⟩), (["b"], ⟨["b"], 3, false⟩)]

/-- An example remote index for evaluating the classification. -/
def exR : RMap := [(["b"], ⟨1, false, ""⟩), (["c"], ⟨7, true, ""⟩)]

theorem reconciler_classification_witness :
    alookup (localNewerOf exL exR) ["b"] = some ⟨["b"], 3, false⟩ ∧
    alookup (remoteNewerOf exL exR) ["b"] = none :=
  ((reconciler_classification exL exR (by decide) (by decide) ["b"]).2.2
      ⟨["b"], 3, false⟩ ⟨1, false, ""⟩ (by decide) (by decide)).1 (by decide)

/-- C2: tombstone synthesis inserts, for every prior non-tombstone path
absent from the current snapshot, a record with the prior file path, the
current time and `tombstone = true`; already-tombstoned prior paths are
skipped, existing entries are untouched, and nothing else is added. -/
theorem sync_tombstone_synthesis (now : Int) (anterior localFiles : LMap)
    (hA : NodupKeys anterior) (p : SPath) :
    alookup (synthesizeTombstones now anterior localFiles) p =
      match alookup localFiles p with
      | some l => some l
      | none =>
        match alookup anterior p with
        | some item =>
          if item.Tombstone then none else some ⟨item.FilePath, now, true⟩
        | none => none := by
  induction anterior generalizing localFiles with
  | nil =>
    show alookup localFiles p = _
    rcases ha : alookup localFiles p with _ | l <;> simp [ha, alookup_nil]
  | cons q rest ih =>
    obtain ⟨k, item⟩ := q
    obtain ⟨hknot, hnd'⟩ := nodupKeys_cons hA
    have hstep : synthesizeTombstones now ((k, item) :: rest) localFiles =
        synthesizeTombstones now rest
          (if item.Tombstone then localFiles
           else
             match alookup localFiles k with
             | some _ => localFiles
             | none => aset localFiles k ⟨item.FilePath, now, true⟩) := rfl
    rw [hstep, ih _ hnd']
    by_cases hk : k = p
    · subst hk
      have hrest : alookup rest k = none := alookup_eq_none_of_notMem hknot
      rw [alookup_cons, if_pos rfl]
      rcases hT : item.Tombstone with _ | _
      · simp only [hT, Bool.false_eq_true, if_false]
        rcases ha : alookup localFiles k with _ | l
        · simp only [ha]
          rw [alookup_aset, if_pos rfl]
        · simp only [ha]
      · simp only [hT, if_true]
        rcases ha : alookup localFiles k with _ | l
        · simp only [ha, hrest]
        · simp only [ha]
    · rw [alookup_cons, if_neg hk]
      have hacc : alookup
          (if item.Tombstone then localFiles
           else
             match alookup localFiles k with
             | some _ => localFiles
             | none => aset localFiles k ⟨item.FilePath, now, true⟩) p
          = alookup localFiles p := by
        rcases hT : item.Tombstone with _ | _
        · simp only [Bool.false_eq_true, if_false]
          rcases ha : alookup localFiles k with _ | l
          · simp only [ha]
            rw [alookup_aset, if_neg hk]
          · simp only [ha]
        · simp only [if_true]
      rw [hacc]

theorem sync_tombstone_synthesis_witness :
    alookup (synthesizeTombstones 99
        [(["x"], ⟨["x"], 1, false⟩), (["y"], ⟨["y"], 2, true⟩)]
        [(["z"], ⟨["z"], 3, false⟩)]) ["x"]
      = some ⟨["x"], 99, true⟩ := by
  rw [sync_tombstone_synthesis 99
    [(["x"], ⟨["x"], 1, false⟩), (["y"], ⟨["y"], 2, true⟩)]
    [(["z"], ⟨["z"], 3, false⟩)] (by decide) ["x"]]
  decide

/-- A concrete environment used by the evaluation witnesses below. -/
def envW : SyncEnv := ⟨false, fun _ => "", fun _ => "", fun _ => true, 0⟩

/-- C10: `compareAndSync` substitutes empty maps for absent (`nil`) map
arguments and behaves exactly as on empty maps, and `GetRemoteFiles` never
returns an absent map together with a `nil` error. -/
theorem compareAndSync_nil_totality :
    (∀ (env : SyncEnv) (fs : Fs) (r : Option RMap),
      compareAndSync env fs none r = compareAndSync env fs (some []) r) ∧
    (∀ (env : SyncEnv) (fs : Fs) (l : Option LMap),
      compareAndSync env fs l none = compareAndSync env fs l (some [])) ∧
    (∀ (lr : Except String (Option RMap)) (m : Option RMap),
      GetRemoteFiles lr = .ok m → m ≠ none) := by
  refine ⟨fun _ _ _ => rfl, fun _ _ _ => rfl, fun lr m h => ?_⟩
  rcases lr with e | o
  · exact absurd h (by simp [GetRemoteFiles])
  · rcases o with _ | x
    · obtain rfl : some ([] : RMap) = m := Except.ok.injEq .. ▸ h
      simp
    · obtain rfl : some x = m := Except.ok.injEq .. ▸ h
      simp

theorem compareAndSync_nil_totality_witness :
    compareAndSync envW [] none (some []) =
      compareAndSync envW [] (some []) (some []) ∧
    (some ([] : RMap) ≠ none) :=
  ⟨compareAndSync_nil_totality.1 envW [] (some []),
   compareAndSync_nil_totality.2.2 (.ok none) (some []) rfl⟩

/-- C9: `Sync` always clears `InProgress` and stamps `LastSync = now` on
exit; a failing stage records its message in `Status.Error` and leaves
`LastLocalFiles` unchanged; only a fully successful pass replaces
`LastLocalFiles` (with the post-reconciliation snapshot) and leaves the
error empty. -/
theorem sync_status_discipline (now : Int) (gl : Except String LMap)
    (gr : Except String RMap) (rc : LMap → RMap → Except String SyncState)
    (repo : RepoState) :
    (Sync now gl gr rc repo).Status.InProgress = false ∧
    (Sync now gl gr rc repo).Status.LastSync = now ∧
    (∀ e, gl = .error e →
      (Sync now gl gr rc repo).Status.Error = "Failed to get local files: " ++ e ∧
      (Sync now gl gr rc repo).LastLocalFiles = repo.LastLocalFiles) ∧
    (∀ L e, gl = .ok L → gr = .error e →
      (Sync now gl gr rc repo).Status.Error = "Failed to get remote files: " ++ e ∧
      (Sync now gl gr rc repo).LastLocalFiles = repo.LastLocalFiles) ∧
    (∀ L R e, gl = .ok L → gr = .ok R →
      rc (synthesizeTombstones now (repo.LastLocalFiles.getD []) L) R = .error e →
      (Sync now gl gr rc repo).Status.Error = "Failed to sync files: " ++ e ∧
      (Sync now gl gr rc repo).LastLocalFiles = repo.LastLocalFiles) ∧
    (∀ L R st, gl = .ok L → gr = .ok R →
      rc (synthesizeTombstones now (repo.LastLocalFiles.getD []) L) R = .ok st →
      (Sync now gl gr rc repo).Status.Error = "" ∧
      (Sync now gl gr rc repo).LastLocalFiles = some st.localItems) := by
  rcases gl with e0 | L0
  · refine ⟨rfl, rfl, fun e he => ?_, fun L e hL _ => ?_, fun L R e hL _ _ => ?_,
      fun L R st hL _ _ => ?_⟩
    · obtain rfl : e0 = e := Except.error.injEq .. ▸ he
      exact ⟨rfl, rfl⟩
    · exact absurd hL (by simp)
    · exact absurd hL (by simp)
    · exact absurd hL (by simp)
  · rcases gr with e1 | R0
    · refine ⟨rfl, rfl, fun e he => ?_, fun L e hL he => ?_,
        fun L R e hL hR _ => ?_, fun L R st hL hR _ => ?_⟩
      · exact absurd he (by simp)
      · obtain rfl : e1 = e := Except.error.injEq .. ▸ he
        exact ⟨rfl, rfl⟩
      · exact absurd hR (by simp)
      · exact absurd hR (by simp)
    · rcases hrc : rc (synthesizeTombstones now (repo.LastLocalFiles.getD []) L0) R0
        with e2 | st0
      · refine ⟨?_, ?_, fun e he => ?_, fun L e _ he => ?_,
          fun L R e hL hR he => ?_, fun L R st hL hR hst => ?_⟩
        · show (Sync now (.ok L0) (.ok R0) rc repo).Status.InProgress = false
          simp only [Sync, hrc]
        · show (Sync now (.ok L0) (.ok R0) rc repo).Status.LastSync = now
          simp only [Sync, hrc]
        · exact absurd he (by simp)
        · exact absurd he (by simp)
        · obtain rfl : L0 = L := Except.ok.injEq .. ▸ hL
          obtain rfl : R0 = R := Except.ok.injEq .. ▸ hR
          rw [hrc] at he
          obtain rfl : e2 = e := Except.error.injEq .. ▸ he
          constructor
          · show (Sync now (.ok L0) (.ok R0) rc repo).Status.Error = _
            simp only [Sync, hrc]
          · show (Sync now (.ok L0) (.ok R0) rc repo).LastLocalFiles = _
            simp only [Sync, hrc]
        · obtain rfl : L0 = L := Except.ok.injEq .. ▸ hL
          obtain rfl : R0 = R := Except.ok.injEq .. ▸ hR
          rw [hrc] at hst
          exact absurd hst (by simp)
      · refine ⟨?_, ?_, fun e he => ?_, fun L e _ he => ?_,
          fun L R e hL hR he => ?_, fun L R st hL hR hst => ?_⟩
        · show (Sync now (.ok L0) (.ok R0) rc repo).Status.InProgress = false
          simp only [Sync, hrc]
        · show (Sync now (.ok L0) (.ok R0) rc repo).Status.LastSync = now
          simp only [Sync, hrc]
        · exact absurd he (by simp)
        · exact absurd he (by simp)
        · obtain rfl : L0 = L := Except.ok.injEq .. ▸ hL
          obtain rfl : R0 = R := Except.ok.injEq .. ▸ hR
          rw [hrc] at he
          exact absurd he (by simp)
        · obtain rfl : L0 = L := Except.ok.injEq .. ▸ hL
          obtain rfl : R0 = R := Except.ok.injEq .. ▸ hR
          rw [hrc] at hst
          obtain rfl : st0 = st := Except.ok.injEq .. ▸ hst
          constructor
          · show (Sync now (.ok L0) (.ok R0) rc repo).Status.Error = ""
            simp only [Sync, hrc]
          · show (Sync now (.ok L0) (.ok R0) rc repo).LastLocalFiles = _
            simp only [Sync, hrc]

theorem sync_status_discipline_witness :
    (Sync 7 (.error "boom") (.ok []) (fun _ _ => .ok ⟨[], [], [], [], [], false⟩)
        ⟨⟨0, false, ""⟩, none⟩).Status.Error
      = "Failed to get local files: " ++ "boom" ∧
    (Sync 7 (.error "boom") (.ok []) (fun _ _ => .ok ⟨[], [], [], [], [], false⟩)
        ⟨⟨0, false, ""⟩, none⟩).LastLocalFiles = none :=
  (sync_status_discipline 7 (.error "boom") (.ok [])
    (fun _ _ => .ok ⟨[], [], [], [], [], false⟩) ⟨⟨0, false, ""⟩, none⟩).2.2.1
    "boom" rfl

/-- C5: the signing computation of `_s3Request` is deterministic and equals
the reference definition written from the specification: the chained
HMAC signing key, the newline-joined string to sign over the canonical
request hash and the credential scope, and the authorization header with
the sorted lower-cased signed-headers list. -/
theorem s3_signing_matches_reference
    (hmac : List UInt8 → List UInt8 → List UInt8)
    (sha256hex : List UInt8 → String) (pathEscapeQ : String → String)
    (method uriPath : String) (query : List (String × String))
    (payload : List UInt8) (awsAccessKey awsSecretKey region host : String)
    (extraHeaders : List (String × String)) (amzDate dateStamp : String) :
    s3AuthorizationHeader hmac sha256hex pathEscapeQ method uriPath query
        payload awsAccessKey awsSecretKey region host extraHeaders
        amzDate dateStamp
      = specAuthorizationHeader hmac sha256hex pathEscapeQ method uriPath query
        payload awsAccessKey awsSecretKey region host extraHeaders
        amzDate dateStamp := by
  simp only [s3AuthorizationHeader, specAuthorizationHeader, getSignatureKey,
    sign]
  rw [intercalate_four, intercalate_six]
  have hscope : ∀ d r : String,
      d ++ "/" ++ r ++ "/" ++ "s3" ++ "/aws4_request"
        = d ++ "/" ++ r ++ "/s3/aws4_request" := by
    intro d r
    rw [String.append_assoc (d ++ "/" ++ r), String.append_assoc (d ++ "/" ++ r)]
    rfl
  rw [hscope,
    show ("AWS4-HMAC-SHA256" ++ " Credential=" : String)
      = "AWS4-HMAC-SHA256 Credential=" from by decide]

/-- C7: for the unreliable-modtime path classified local-wins with a
non-tombstone remote record present, the content hash is computed before
uploading; if it equals the stored hash the upload is skipped entirely and
the state (hence the stored hash and the changed flag) is untouched,
otherwise the file is uploaded, the new hash is stored in the updated
record, and the changed flag is set. -/
theorem fetch_head_hash_skip (env : SyncEnv) (st : SyncState) (l : FileItem)
    (r : RemoteItem) (f : FsFile) (hTomb : l.Tombstone = false)
    (hfs : alookup st.fs l.FilePath = some f)
    (hrem : alookup st.remoteItems FETCH_HEAD = some r)
    (hrTomb : r.Tombstone = false) :
    (env.hash f.content = r.SHA256 →
      applyLocalWinsItem env st FETCH_HEAD l = .ok st) ∧
    (env.hash f.content ≠ r.SHA256 →
      applyLocalWinsItem env st FETCH_HEAD l = .ok
        { st with
          remoteItems := aset st.remoteItems FETCH_HEAD
            ⟨l.ModTime, false, env.hash f.content⟩
          ops := st.ops ++ [ClientOp.put FETCH_HEAD f.content f.modTime]
          changed := true }) := by
  constructor
  · intro hsha
    unfold applyLocalWinsItem
    rw [if_neg (by simp [hTomb])]
    simp only [hfs, hrem, if_pos rfl, if_pos hrTomb, if_pos hsha]
    simp
  · intro hsha
    unfold applyLocalWinsItem
    rw [if_neg (by simp [hTomb])]
    simp only [hfs, hrem, if_pos rfl, if_pos hrTomb, if_neg hsha]
    rfl

theorem fetch_head_hash_skip_witness :
    applyLocalWinsItem ⟨false, fun s => "H" ++ s, fun _ => "", fun _ => true, 0⟩
        ⟨[], [(FETCH_HEAD, ⟨10, false, "Hz"⟩)], [(FETCH_HEAD, ⟨"z", 50⟩)],
         [], [], false⟩
        FETCH_HEAD ⟨FETCH_HEAD, 50, false⟩
      = .ok ⟨[], [(FETCH_HEAD, ⟨10, false, "Hz"⟩)], [(FETCH_HEAD, ⟨"z", 50⟩)],
         [], [], false⟩ :=
  (fetch_head_hash_skip ⟨false, fun s => "H" ++ s, fun _ => "", fun _ => true, 0⟩
    ⟨[], [(FETCH_HEAD, ⟨10, false, "Hz"⟩)], [(FETCH_HEAD, ⟨"z", 50⟩)], [], [], false⟩
    ⟨FETCH_HEAD, 50, false⟩ ⟨10, false, "Hz"⟩ ⟨"z", 50⟩
    rfl (by decide) (by decide) rfl).1 (by decide)

/-- C8: for a remote-wins path, when case-insensitive matching is enabled, a
file exists at the target location, and the parent directory holds an entry
equal to the target name case-insensitively but different in exact case, the
whole remote-wins operation is skipped and the state — local file, local
snapshot and remote record — is left unchanged. -/
theorem remote_wins_case_conflict_skip (env : SyncEnv) (st : SyncState)
    (slashPath : SPath) (remoteItem : RemoteItem)
    (hIC : env.ignoreCase = true) (f : FsFile)
    (hexist : alookup st.fs slashPath = some f)
    (targetName entryName : String)
    (hlast : slashPath.getLast? = some targetName)
    (hentry : entryName ∈ dirEntries st.fs slashPath.dropLast)
    (hcase : lowerStr entryName = lowerStr targetName)
    (hne : entryName ≠ targetName) :
    applyRemoteWinsItem env st slashPath remoteItem = st := by
  have hconflict : checkFilenameConflictIgnoringCase st.fs slashPath = true := by
    unfold checkFilenameConflictIgnoringCase
    simp only [hexist, hlast]
    rw [List.any_eq_true]
    refine ⟨entryName, hentry, ?_⟩
    rw [Bool.and_eq_true, beq_iff_eq]
    exact ⟨hcase, by simp [hne]⟩
  unfold applyRemoteWinsItem
  rw [if_pos (by rw [hIC, hconflict]; rfl)]

theorem remote_wins_case_conflict_skip_witness :
    applyRemoteWinsItem ⟨true, fun _ => "", fun _ => "", fun _ => true, 0⟩
        ⟨[(["foo.txt"], ⟨["foo.txt"], 1, false⟩)], [],
         [(["Foo.txt"], ⟨"q", 1⟩), (["foo.txt"], ⟨"r", 1⟩)], [], [], false⟩
        ["foo.txt"] ⟨5, false, ""⟩
      = ⟨[(["foo.txt"], ⟨["foo.txt"], 1, false⟩)], [],
         [(["Foo.txt"], ⟨"q", 1⟩), (["foo.txt"], ⟨"r", 1⟩)], [], [], false⟩ :=
  remote_wins_case_conflict_skip ⟨true, fun _ => "", fun _ => "", fun _ => true, 0⟩
    ⟨[(["foo.txt"], ⟨["foo.txt"], 1, false⟩)], [],
     [(["Foo.txt"], ⟨"q", 1⟩), (["foo.txt"], ⟨"r", 1⟩)], [], [], false⟩
    ["foo.txt"] ⟨5, false, ""⟩ rfl ⟨"r", 1⟩ (by decide) "foo.txt" "Foo.txt"
    (by decide) (by decide) (by decide) (by decide)

/-- C4: during garbage collection, every tombstone record older than 30 days
gets a `Delete` call; only when the delete succeeds is its key dropped and
the changed flag set, a failed delete keeps the record for the next pass,
a tombstone aged 30 days or less is retained untouched, and a garbage
collection (or delete) failure never fails the pass — once the local-wins
loop succeeded, `compareAndSync` returns successfully. -/
theorem tombstone_gc (dok : SPath → Bool) (now : Int) (L : LMap) (R : RMap)
    (fs0 : Fs) (c : Bool) (hR : NodupKeys R) (p : SPath) (r : RemoteItem)
    (hp : alookup R p = some r) :
    (r.Tombstone = true → now - r.ModTime > 30 * 24 * 60 * 60 →
      ClientOp.del p ∈ (gcTombstones dok now ⟨L, R, fs0, [], [], c⟩).ops ∧
      (dok p = true →
        alookup (gcTombstones dok now ⟨L, R, fs0, [], [], c⟩).remoteItems p = none ∧
        (gcTombstones dok now ⟨L, R, fs0, [], [], c⟩).changed = true) ∧
      (dok p = false →
        alookup (gcTombstones dok now ⟨L, R, fs0, [], [], c⟩).remoteItems p
          = some r)) ∧
    (r.Tombstone = true → now - r.ModTime ≤ 30 * 24 * 60 * 60 →
      alookup (gcTombstones dok now ⟨L, R, fs0, [], [], c⟩).remoteItems p = some r ∧
      ClientOp.del p ∉ (gcTombstones dok now ⟨L, R, fs0, [], [], c⟩).ops) ∧
    (∀ (env : SyncEnv) (fs2 : Fs) (L2 : LMap) (R2 : RMap) (st1 : SyncState),
      lwFold env (localNewerOf L2 R2) ⟨L2, R2, fs2, [], [], false⟩ = .ok st1 →
      ∃ res, compareAndSync env fs2 (some L2) (some R2) = .ok res) := by
  have hlook := gcFold_lookup dok now R ⟨L, R, fs0, [], [], c⟩ p hR hR
  simp only [hp] at hlook
  have hops := gcFold_ops dok now R ⟨L, R, fs0, [], [], c⟩ p
  refine ⟨fun hT hexp => ?_, fun hT hexp => ?_, fun env fs2 L2 R2 st1 h1 => ?_⟩
  · refine ⟨?_, fun hok => ?_, fun hok => ?_⟩
    · exact (gcFold_ops dok now R ⟨L, R, fs0, [], [], c⟩ p).mpr
        (Or.inr ⟨r, mem_of_alookup_eq_some hp, hT, hexp⟩)
    · constructor
      · show alookup (gcFold dok now R ⟨L, R, fs0, [], [], c⟩).remoteItems p = none
        rw [hlook, if_pos ⟨hT, hexp⟩, if_pos hok]
      · exact (gcFold_changed dok now R ⟨L, R, fs0, [], [], c⟩).mpr
          (Or.inr ⟨(p, r), mem_of_alookup_eq_some hp, hT, hexp, hok⟩)
    · show alookup (gcFold dok now R ⟨L, R, fs0, [], [], c⟩).remoteItems p = some r
      rw [hlook, if_pos ⟨hT, hexp⟩, if_neg (by simp [hok])]
  · constructor
    · show alookup (gcFold dok now R ⟨L, R, fs0, [], [], c⟩).remoteItems p = some r
      rw [hlook, if_neg (fun hc => absurd hc.2 (not_lt_of_ge hexp))]
    · intro hmem
      rcases hops.mp hmem with hfalse | ⟨r2, hmem2, hT2, hexp2⟩
      · exact absurd hfalse (by simp)
      · have : r2 = r := by
          have := alookup_eq_some_of_mem hR hmem2
          rw [hp] at this
          exact (Option.some.injEq .. ▸ this).symm
        subst this
        exact absurd hexp2 (not_lt_of_ge hexp)
  · refine ⟨gcTombstones env.deleteOk env.now
      (rwFold env (remoteNewerOf L2 R2) st1), ?_⟩
    show (match lwFold env (localNewerOf L2 R2) ⟨L2, R2, fs2, [], [], false⟩ with
      | .error e => (.error e : Except String SyncState)
      | .ok s1 =>
        .ok (gcTombstones env.deleteOk env.now
          (rwFold env (remoteNewerOf L2 R2) s1))) = _
    rw [h1]

theorem tombstone_gc_witness :
    ClientOp.del ["e"] ∈
      (gcTombstones (fun _ => true) 2592100
        ⟨[], [(["e"], ⟨99, true, ""⟩)], [], [], [], false⟩).ops ∧
    alookup (gcTombstones (fun _ => true) 2592100
        ⟨[], [(["e"], ⟨99, true, ""⟩)], [], [], [], false⟩).remoteItems ["e"]
      = none ∧
    (gcTombstones (fun _ => true) 2592100
        ⟨[], [(["e"], ⟨99, true, ""⟩)], [], [], [], false⟩).changed = true := by
  have h := (tombstone_gc (fun _ => true) 2592100 [] [(["e"], ⟨99, true, ""⟩)]
    [] false (by decide) ["e"] ⟨99, true, ""⟩ (by decide)).1 rfl (by decide)
  exact ⟨h.1, (h.2.1 rfl).1, (h.2.1 rfl).2⟩

/-- C6: a local deletion is propagated by overwriting the remote index entry
with a tombstone record carrying the local tombstone time — never by
removing the key; the remote-wins phase never modifies the index at all;
and the only way a key leaves the index during a pass is garbage collection
of an expired tombstone whose remote `Delete` succeeded. -/
theorem deletion_via_tombstone (env : SyncEnv) (fs0 : Fs) (L : LMap) (R : RMap)
    (hL : NodupKeys L) (hR : NodupKeys R) (st1 : SyncState)
    (h1 : lwFold env (localNewerOf L R) ⟨L, R, fs0, [], [], false⟩ = .ok st1) :
    (∀ p l, alookup (localNewerOf L R) p = some l → l.Tombstone = true →
      alookup st1.remoteItems p = some ⟨l.ModTime, true, ""⟩) ∧
    (∀ items, (rwFold env items st1).remoteItems = st1.remoteItems) ∧
    (∀ p, alookup (rwFold env (remoteNewerOf L R) st1).remoteItems p ≠ none →
      alookup (gcTombstones env.deleteOk env.now
          (rwFold env (remoteNewerOf L R) st1)).remoteItems p = none →
      env.deleteOk p = true ∧
      ClientOp.del p ∈ (gcTombstones env.deleteOk env.now
          (rwFold env (remoteNewerOf L R) st1)).ops ∧
      ∃ r, alookup (rwFold env (remoteNewerOf L R) st1).remoteItems p = some r ∧
        r.Tombstone = true ∧ env.now - r.ModTime > 30 * 24 * 60 * 60) := by
  have hndLW : NodupKeys (localNewerOf L R) := nodupKeys_localNewerOf hL hR
  refine ⟨fun p l hp hT => ?_, fun items => (rwFold_frame env items st1).1, ?_⟩
  · have := lwFold_lookup_of_mem env (localNewerOf L R) _ st1 p l hndLW h1 hp
    unfold lwOutcome at this
    rw [if_pos hT] at this
    exact (Option.some.injEq .. ▸ this).symm
  · intro p hne hnone
    set st2 := rwFold env (remoteNewerOf L R) st1 with hst2
    have hndR2 : NodupKeys st2.remoteItems := by
      rw [(rwFold_frame env (remoteNewerOf L R) st1).1]
      exact (lwFold_frame env (localNewerOf L R) _ st1 h1).2.2.2 hR
    rcases hr : alookup st2.remoteItems p with _ | r
    · exact absurd hr hne
    · have hlook := gcFold_lookup env.deleteOk env.now st2.remoteItems st2 p hndR2 hndR2
      simp only [hr] at hlook
      show env.deleteOk p = true ∧
        ClientOp.del p ∈ (gcFold env.deleteOk env.now st2.remoteItems st2).ops ∧ _
      have hgc : alookup (gcFold env.deleteOk env.now st2.remoteItems st2).remoteItems p
          = none := hnone
      rw [hlook] at hgc
      by_cases hexp : r.Tombstone = true ∧ env.now - r.ModTime > 30 * 24 * 60 * 60
      · rw [if_pos hexp] at hgc
        by_cases hok : env.deleteOk p = true
        · refine ⟨hok, ?_, r, rfl, hexp.1, hexp.2⟩
          exact (gcFold_ops env.deleteOk env.now st2.remoteItems st2 p).mpr
            (Or.inr ⟨r, mem_of_alookup_eq_some hr, hexp.1, hexp.2⟩)
        · rw [if_neg (by simp [hok])] at hgc
          exact absurd hgc (by simp)
      · rw [if_neg hexp] at hgc
        exact absurd hgc (by simp)

/-- Concrete first-phase state for the C6 witness: a fresh local tombstone
at `gone` is propagated into the index next to an expired tombstone at
`old`. -/
def st1W : SyncState :=
  ⟨[(["gone"], ⟨["gone"], 2599999, true⟩)],
   [(["old"], ⟨1, true, ""⟩), (["gone"], ⟨2599999, true, ""⟩)],
   [], [ClientOp.markTombstone ["gone"]], [], true⟩

/-- The C6 witness environment. -/
def env6W : SyncEnv := ⟨false, fun _ => "", fun _ => "", fun _ => true, 2600000⟩

/-- The C6 witness local snapshot. -/
def L6W : LMap := [(["gone"], ⟨["gone"], 2599999, true⟩)]

/-- The C6 witness remote index. -/
def R6W : RMap := [(["old"], ⟨1, true, ""⟩)]

theorem deletion_via_tombstone_witness :
    alookup st1W.remoteItems ["gone"] = some ⟨2599999, true, ""⟩ ∧
    (env6W.deleteOk ["old"] = true ∧
      ClientOp.del ["old"] ∈ (gcTombstones env6W.deleteOk env6W.now
          (rwFold env6W (remoteNewerOf L6W R6W) st1W)).ops ∧
      ∃ r, alookup (rwFold env6W (remoteNewerOf L6W R6W) st1W).remoteItems ["old"]
          = some r ∧
        r.Tombstone = true ∧ env6W.now - r.ModTime > 30 * 24 * 60 * 60) := by
  have h := deletion_via_tombstone env6W [] L6W R6W (by decide) (by decide)
    st1W rfl
  exact ⟨h.1 ["gone"] ⟨["gone"], 2599999, true⟩ (by decide) rfl,
    h.2.2 ["old"] (by decide) (by decide)⟩

/-! ### Idempotence of the reconciler

A state is stable at a path when a further pass takes no action there: the
path is in neither map, or its records carry equal timestamps, or it is a
remote tombstone with no local file (re-classified remote-wins but applied
as a no-op), or it is the unreliable-modtime path with matching content
hash (re-classified local-wins but skipped). -/
def StableAt (env : SyncEnv) (a : Option FileItem) (b : Option RemoteItem)
    (fsv : Option FsFile) (p : SPath) : Prop :=
  match a, b with
  | none, none => True
  | some _, none => False
  | none, some r => r.Tombstone = true ∧ fsv = none
  | some l, some r =>
    l.FilePath = p ∧
    (l.ModTime = r.ModTime ∨
      (l.ModTime > r.ModTime ∧ p = FETCH_HEAD ∧ l.Tombstone = false ∧
        r.Tombstone = false ∧
        ∃ f, fsv = some f ∧ env.hash f.content = r.SHA256))

theorem localNewerOf_from_local (L : LMap) (R : RMap) (hL : NodupKeys L)
    (hR : NodupKeys R) (p : SPath) (l : FileItem)
    (hp : alookup (localNewerOf L R) p = some l) : alookup L p = some l := by
  have hc := alookup_localNewerOf L R hL hR p
  rw [hp] at hc
  rcases ha : alookup L p with _ | l0 <;> rcases hb : alookup R p with _ | r <;>
    simp only [ha, hb] at hc
  · exact absurd hc.symm (by simp)
  · exact absurd hc.symm (by simp)
  · exact hc.symm
  · rcases em (l0.ModTime > r.ModTime) with hgt | hgt
    · rw [if_pos hgt] at hc
      exact hc.symm
    · rw [if_neg hgt] at hc
      exact absurd hc.symm (by simp)

theorem applyLocalWinsItem_skip (env : SyncEnv) (st : SyncState) (p : SPath)
    (l : FileItem) (f : FsFile) (r : RemoteItem)
    (hlT : l.Tombstone = false) (hf : alookup st.fs l.FilePath = some f)
    (hFH : p = FETCH_HEAD) (hr : alookup st.remoteItems p = some r)
    (hrT : r.Tombstone = false) (hsha : env.hash f.content = r.SHA256) :
    applyLocalWinsItem env st p l = .ok st := by
  subst hFH
  unfold applyLocalWinsItem
  rw [if_neg (by simp [hlT])]
  simp only [hf, hr, if_pos rfl, if_pos hrT, if_pos hsha]
  simp

theorem applyRemoteWinsItem_noop_tombstone (env : SyncEnv) (st : SyncState)
    (p : SPath) (r : RemoteItem) (hIC : env.ignoreCase = false)
    (hrT : r.Tombstone = true) (hfv : alookup st.fs p = none)
    (hlo : alookup st.localItems p = none) :
    applyRemoteWinsItem env st p r = st := by
  unfold applyRemoteWinsItem
  rw [if_neg (by rw [hIC]; simp), if_neg (by simp [hrT])]
  simp only [hfv, Option.isSome_none, Bool.false_eq_true, if_false,
    List.append_nil, aerase_of_notMem hlo]

/-- When every path of both maps is stable and no remote tombstone is past
the retention window, a reconciliation pass is a perfect no-op: it issues no
client calls, mutates no files, and finishes with `changed = false`. -/
theorem stable_run_noop (env : SyncEnv) (L2 : LMap) (R2 : RMap) (F2 : Fs)
    (hIC : env.ignoreCase = false) (hL2 : NodupKeys L2) (hR2 : NodupKeys R2)
    (hstab : ∀ p, StableAt env (alookup L2 p) (alookup R2 p) (alookup F2 p) p)
    (hnoexp : ∀ p r, alookup R2 p = some r → r.Tombstone = true →
      env.now - r.ModTime ≤ 30 * 24 * 60 * 60) :
    compareAndSync env F2 (some L2) (some R2) = .ok ⟨L2, R2, F2, [], [], false⟩ := by
  have hlwid : lwFold env (localNewerOf L2 R2) ⟨L2, R2, F2, [], [], false⟩
      = .ok ⟨L2, R2, F2, [], [], false⟩ := by
    refine lwFold_identity env _ _ (fun q hq => ?_)
    have hq2 : alookup (localNewerOf L2 R2) q.1 = some q.2 :=
      alookup_eq_some_of_mem (nodupKeys_localNewerOf hL2 hR2) hq
    have hc := alookup_localNewerOf L2 R2 hL2 hR2 q.1
    rw [hq2] at hc
    rcases ha : alookup L2 q.1 with _ | l <;> rcases hb : alookup R2 q.1 with _ | r <;>
      simp only [ha, hb] at hc
    · exact absurd hc.symm (by simp)
    · exact absurd hc.symm (by simp)
    · have := hstab q.1
      rw [ha, hb] at this
      exact this.elim
    · rcases em (l.ModTime > r.ModTime) with hgt | hgt
      · rw [if_pos hgt] at hc
        obtain rfl : q.2 = l := Option.some.injEq .. ▸ hc
        have hs := hstab q.1
        rw [ha, hb] at hs
        obtain ⟨hFP, hdisj⟩ := hs
        rcases hdisj with heq | ⟨_, hFH, hlT, hrT, f, hf, hsha⟩
        · rw [heq] at hgt
          exact absurd hgt (lt_irrefl _)
        · refine applyLocalWinsItem_skip env _ q.1 q.2 f r hlT ?_ hFH ?_ hrT hsha
          · show alookup F2 q.2.FilePath = some f
            rw [hFP]
            exact hf
          · exact hb
      · rw [if_neg hgt] at hc
        exact absurd hc.symm (by simp)
  have hrwid : rwFold env (remoteNewerOf L2 R2) ⟨L2, R2, F2, [], [], false⟩
      = ⟨L2, R2, F2, [], [], false⟩ := by
    refine rwFold_identity env _ _ (fun q hq => ?_)
    have hq2 : alookup (remoteNewerOf L2 R2) q.1 = some q.2 :=
      alookup_eq_some_of_mem (nodupKeys_remoteNewerOf hR2) hq
    have hc := alookup_remoteNewerOf L2 R2 hR2 q.1
    rw [hq2] at hc
    rcases ha : alookup L2 q.1 with _ | l <;> rcases hb : alookup R2 q.1 with _ | r <;>
      simp only [ha, hb] at hc
    · exact absurd hc.symm (by simp)
    · have hrq : q.2 = r := Option.some.injEq .. ▸ hc
      have hs := hstab q.1
      rw [ha, hb] at hs
      obtain ⟨hrT, hfv⟩ := hs
      rw [hrq]
      exact applyRemoteWinsItem_noop_tombstone env _ q.1 r hIC hrT hfv ha
    · exact absurd hc.symm (by simp)
    · have hs := hstab q.1
      rw [ha, hb] at hs
      obtain ⟨_, hdisj⟩ := hs
      rcases em (l.ModTime > r.ModTime) with hgt | hgt
      · rw [if_pos hgt] at hc
        exact absurd hc.symm (by simp)
      · rw [if_neg hgt] at hc
        rcases em (l.ModTime < r.ModTime) with hlt | hlt
        · rcases hdisj with heq | ⟨hgt2, _⟩
          · rw [heq] at hlt
            exact absurd hlt (lt_irrefl _)
          · exact absurd (lt_trans hlt hgt2) (lt_irrefl _)
        · rw [if_neg hlt] at hc
          exact absurd hc.symm (by simp)
  have hgcid : gcTombstones env.deleteOk env.now (⟨L2, R2, F2, [], [], false⟩ : SyncState)
      = ⟨L2, R2, F2, [], [], false⟩ := by
    refine gcFold_identity env.deleteOk env.now _ _ (fun q hq => ?_)
    rintro ⟨hT, hexp⟩
    have hq2 : alookup R2 q.1 = some q.2 := alookup_eq_some_of_mem hR2 hq
    exact absurd hexp (not_lt_of_ge (hnoexp q.1 q.2 hq2 hT))
  show (match lwFold env (localNewerOf L2 R2) ⟨L2, R2, F2, [], [], false⟩ with
    | .error e => (.error e : Except String SyncState)
    | .ok s1 =>
      .ok (gcTombstones env.deleteOk env.now
        (rwFold env (remoteNewerOf L2 R2) s1))) = _
  rw [hlwid]
  show Except.ok (gcTombstones env.deleteOk env.now
    (rwFold env (remoteNewerOf L2 R2) ⟨L2, R2, F2, [], [], false⟩)) = _
  rw [hrwid, hgcid]

theorem run1_noexp (env : SyncEnv) (fs0 : Fs) (L : LMap) (R : RMap)
    (st1 : SyncState) (hL : NodupKeys L) (hR : NodupKeys R)
    (hTL : ∀ p l, alookup L p = some l → l.Tombstone = true →
      env.now - l.ModTime ≤ 30 * 24 * 60 * 60)
    (hTR : ∀ p r, alookup R p = some r → r.Tombstone = true →
      env.now - r.ModTime ≤ 30 * 24 * 60 * 60)
    (h1 : lwFold env (localNewerOf L R) ⟨L, R, fs0, [], [], false⟩ = .ok st1) :
    ∀ p r2, alookup (rwFold env (remoteNewerOf L R) st1).remoteItems p = some r2 →
      r2.Tombstone = true → env.now - r2.ModTime ≤ 30 * 24 * 60 * 60 := by
  intro p r2 hp hT
  rw [(rwFold_frame env (remoteNewerOf L R) st1).1] at hp
  rcases hlw : alookup (localNewerOf L R) p with _ | l
  · rw [lwFold_lookup_of_notMem env (localNewerOf L R) ⟨L, R, fs0, [], [], false⟩
      st1 p h1 hlw] at hp
    exact hTR p r2 hp hT
  · have houtc : lwOutcome env p l (alookup R p) (alookup fs0 l.FilePath)
        = some (alookup st1.remoteItems p) :=
      lwFold_lookup_of_mem env (localNewerOf L R) ⟨L, R, fs0, [], [], false⟩
        st1 p l (nodupKeys_localNewerOf hL hR) h1 hlw
    rw [hp] at houtc
    have haL : alookup L p = some l := localNewerOf_from_local L R hL hR p l hlw
    have hfalse : ∀ sha : String,
        some (some (⟨l.ModTime, false, sha⟩ : RemoteItem)) = some (some r2) →
        env.now - r2.ModTime ≤ 30 * 24 * 60 * 60 := by
      intro sha hh
      simp only [Option.some.injEq] at hh
      rw [← hh] at hT
      exact absurd hT (by simp)
    unfold lwOutcome at houtc
    by_cases hlT : l.Tombstone = true
    · rw [if_pos hlT] at houtc
      simp only [Option.some.injEq] at houtc
      rw [← houtc]
      exact hTL p l haL hlT
    · rw [if_neg hlT] at houtc
      rcases hfsv : alookup fs0 l.FilePath with _ | f
      · simp only [hfsv] at houtc
        exact absurd houtc (by simp)
      · simp only [hfsv] at houtc
        by_cases hFH : p = FETCH_HEAD
        · rw [if_pos hFH] at houtc
          rcases hbR : alookup R p with _ | r
          · simp only [hbR] at houtc
            exact hfalse "" houtc
          · simp only [hbR] at houtc
            by_cases hrT : r.Tombstone = false
            · rw [if_pos hrT] at houtc
              by_cases hsha : env.hash f.content = r.SHA256
              · rw [if_pos hsha] at houtc
                simp only [Option.some.injEq] at houtc
                rw [← houtc] at hT ⊢
                exact hTR p r hbR hT
              · rw [if_neg hsha] at houtc
                exact hfalse (env.hash f.content) houtc
            · rw [if_neg hrT] at houtc
              exact hfalse "" houtc
        · rw [if_neg hFH] at houtc
          exact hfalse "" houtc

theorem run1_stable (env : SyncEnv) (fs0 : Fs) (L : LMap) (R : RMap)
    (st1 : SyncState) (hIC : env.ignoreCase = false)
    (hL : NodupKeys L) (hR : NodupKeys R) (hF : NodupKeys fs0)
    (hKey : ∀ p l, alookup L p = some l → l.FilePath = p)
    (h1 : lwFold env (localNewerOf L R) ⟨L, R, fs0, [], [], false⟩ = .ok st1)
    (p : SPath) :
    StableAt env (alookup (rwFold env (remoteNewerOf L R) st1).localItems p)
      (alookup (rwFold env (remoteNewerOf L R) st1).remoteItems p)
      (alookup (rwFold env (remoteNewerOf L R) st1).fs p) p := by
  obtain ⟨hL1, hF1, _, hndR1f⟩ :=
    lwFold_frame env (localNewerOf L R) ⟨L, R, fs0, [], [], false⟩ st1 h1
  have hL1 : st1.localItems = L := hL1
  have hF1 : st1.fs = fs0 := hF1
  have hndL1 : NodupKeys st1.localItems := by rw [hL1]; exact hL
  have hndF1 : NodupKeys st1.fs := by rw [hF1]; exact hF
  have hndRN : NodupKeys (remoteNewerOf L R) := nodupKeys_remoteNewerOf hR
  obtain ⟨hlocal, hfs⟩ :=
    rwFold_lookup env (remoteNewerOf L R) st1 p hIC hndRN hndL1 hndF1
  have hrem2 : (rwFold env (remoteNewerOf L R) st1).remoteItems = st1.remoteItems :=
    (rwFold_frame env (remoteNewerOf L R) st1).1
  have hlwc := alookup_localNewerOf L R hL hR p
  have hrwc := alookup_remoteNewerOf L R hR p
  rcases ha : alookup L p with _ | l <;> rcases hb : alookup R p with _ | r <;>
    simp only [ha, hb] at hlwc hrwc
  · -- path in neither map
    simp only [hrwc] at hlocal hfs
    rw [hL1, ha] at hlocal
    have hb' : alookup (rwFold env (remoteNewerOf L R) st1).remoteItems p = none := by
      rw [hrem2, lwFold_lookup_of_notMem env (localNewerOf L R)
        ⟨L, R, fs0, [], [], false⟩ st1 p h1 hlwc]
      exact hb
    rw [hlocal, hb']
    exact trivial
  · -- remote-only path: downloaded or tombstone-removed
    simp only [hrwc] at hlocal hfs
    have hb' : alookup (rwFold env (remoteNewerOf L R) st1).remoteItems p = some r := by
      rw [hrem2, lwFold_lookup_of_notMem env (localNewerOf L R)
        ⟨L, R, fs0, [], [], false⟩ st1 p h1 hlwc]
      exact hb
    rw [hb']
    by_cases hrT : r.Tombstone = true
    · rw [if_pos hrT] at hlocal hfs
      rw [hlocal, hfs]
      exact ⟨hrT, rfl⟩
    · rw [if_neg hrT] at hlocal hfs
      rw [hlocal]
      exact ⟨rfl, Or.inl rfl⟩
  · -- local-only path: uploaded or tombstoned into the index
    simp only [hrwc] at hlocal hfs
    rw [hL1, ha] at hlocal
    have houtc : lwOutcome env p l (alookup R p) (alookup fs0 l.FilePath)
        = some (alookup st1.remoteItems p) :=
      lwFold_lookup_of_mem env (localNewerOf L R) ⟨L, R, fs0, [], [], false⟩
        st1 p l (nodupKeys_localNewerOf hL hR) h1 hlwc
    rw [hb] at houtc
    unfold lwOutcome at houtc
    by_cases hlT : l.Tombstone = true
    · rw [if_pos hlT] at houtc
      have hb' : alookup (rwFold env (remoteNewerOf L R) st1).remoteItems p
          = some ⟨l.ModTime, true, ""⟩ := by
        rw [hrem2]
        exact (Option.some.injEq .. ▸ houtc).symm
      rw [hlocal, hb']
      exact ⟨hKey p l ha, Or.inl rfl⟩
    · rw [if_neg hlT] at houtc
      rcases hfsv : alookup fs0 l.FilePath with _ | f
      · simp only [hfsv] at houtc
        exact absurd houtc (by simp)
      · simp only [hfsv, ite_self] at houtc
        have hb' : alookup (rwFold env (remoteNewerOf L R) st1).remoteItems p
            = some ⟨l.ModTime, false, ""⟩ := by
          rw [hrem2]
          exact (Option.some.injEq .. ▸ houtc).symm
        rw [hlocal, hb']
        exact ⟨hKey p l ha, Or.inl rfl⟩
  · -- path in both maps
    rcases lt_trichotomy l.ModTime r.ModTime with hlt | heq | hgt
    · -- remote strictly newer: downloaded or locally removed
      rw [if_neg (lt_asymm hlt)] at hlwc
      rw [if_neg (lt_asymm hlt), if_pos hlt] at hrwc
      simp only [hrwc] at hlocal hfs
      have hb' : alookup (rwFold env (remoteNewerOf L R) st1).remoteItems p
          = some r := by
        rw [hrem2, lwFold_lookup_of_notMem env (localNewerOf L R)
          ⟨L, R, fs0, [], [], false⟩ st1 p h1 hlwc]
        exact hb
      rw [hb']
      by_cases hrT : r.Tombstone = true
      · rw [if_pos hrT] at hlocal hfs
        rw [hlocal, hfs]
        exact ⟨hrT, rfl⟩
      · rw [if_neg hrT] at hlocal hfs
        rw [hlocal]
        exact ⟨rfl, Or.inl rfl⟩
    · -- equal timestamps: untouched
      have hgt' : ¬ l.ModTime > r.ModTime := by rw [heq]; exact lt_irrefl _
      have hlt' : ¬ l.ModTime < r.ModTime := by rw [heq]; exact lt_irrefl _
      rw [if_neg hgt'] at hlwc
      rw [if_neg hgt', if_neg hlt'] at hrwc
      simp only [hrwc] at hlocal hfs
      rw [hL1, ha] at hlocal
      have hb' : alookup (rwFold env (remoteNewerOf L R) st1).remoteItems p
          = some r := by
        rw [hrem2, lwFold_lookup_of_notMem env (localNewerOf L R)
          ⟨L, R, fs0, [], [], false⟩ st1 p h1 hlwc]
        exact hb
      rw [hlocal, hb']
      exact ⟨hKey p l ha, Or.inl heq⟩
    · -- local strictly newer: uploaded, tombstoned, or hash-skipped
      rw [if_pos hgt] at hlwc hrwc
      simp only [hrwc] at hlocal hfs
      rw [hL1, ha] at hlocal
      rw [hF1] at hfs
      have houtc : lwOutcome env p l (alookup R p) (alookup fs0 l.FilePath)
          = some (alookup st1.remoteItems p) :=
        lwFold_lookup_of_mem env (localNewerOf L R) ⟨L, R, fs0, [], [], false⟩
          st1 p l (nodupKeys_localNewerOf hL hR) h1 hlwc
      rw [hb] at houtc
      unfold lwOutcome at houtc
      have hupload : ∀ sha : String,
          some (some (⟨l.ModTime, false, sha⟩ : RemoteItem))
            = some (alookup st1.remoteItems p) →
          StableAt env (alookup (rwFold env (remoteNewerOf L R) st1).localItems p)
            (alookup (rwFold env (remoteNewerOf L R) st1).remoteItems p)
            (alookup (rwFold env (remoteNewerOf L R) st1).fs p) p := by
        intro sha hout
        have hb' : alookup (rwFold env (remoteNewerOf L R) st1).remoteItems p
            = some ⟨l.ModTime, false, sha⟩ := by
          rw [hrem2]
          exact (Option.some.injEq .. ▸ hout).symm
        rw [hlocal, hb']
        exact ⟨hKey p l ha, Or.inl rfl⟩
      by_cases hlT : l.Tombstone = true
      · rw [if_pos hlT] at houtc
        have hb' : alookup (rwFold env (remoteNewerOf L R) st1).remoteItems p
            = some ⟨l.ModTime, true, ""⟩ := by
          rw [hrem2]
          exact (Option.some.injEq .. ▸ houtc).symm
        rw [hlocal, hb']
        exact ⟨hKey p l ha, Or.inl rfl⟩
      · rw [if_neg hlT] at houtc
        rcases hfsv : alookup fs0 l.FilePath with _ | f
        · simp only [hfsv] at houtc
          exact absurd houtc (by simp)
        · simp only [hfsv] at houtc
          by_cases hFH : p = FETCH_HEAD
          · rw [if_pos hFH] at houtc
            by_cases hrT : r.Tombstone = false
            · rw [if_pos hrT] at houtc
              by_cases hsha : env.hash f.content = r.SHA256
              · rw [if_pos hsha] at houtc
                have hb' : alookup (rwFold env (remoteNewerOf L R) st1).remoteItems p
                    = some r := by
                  rw [hrem2]
                  exact (Option.some.injEq .. ▸ houtc).symm
                have hlT' : l.Tombstone = false := by
                  rcases hbool : l.Tombstone with _ | _
                  · rfl
                  · exact absurd hbool hlT
                rw [hlocal, hb']
                refine ⟨hKey p l ha, Or.inr ⟨hgt, hFH, hlT', hrT, f, ?_, hsha⟩⟩
                rw [hfs, ← hKey p l ha]
                exact hfsv
              · rw [if_neg hsha] at houtc
                exact hupload (env.hash f.content) houtc
            · rw [if_neg hrT] at houtc
              exact hupload "" houtc
          · rw [if_neg hFH] at houtc
            exact hupload "" houtc

/-- C3 (amended): on the local snapshot, remote index and filesystem that
resulted from a first successful pass — with duplicate-free maps whose
file paths match their keys, case-insensitive matching disabled, and no
tombstone on either side already past the 30-day retention window — a
second pass performs no `Put`/`Get`/`Delete`/`MarkTombstone` calls and no
filesystem mutations, leaves all three states unchanged, and calls
`Finish` with `changed = false`, which writes nothing.  (Paths may still
be classified local-wins or remote-wins on the second pass; every such
classification applies as a no-op.) -/
theorem reconciler_second_run_noop (env : SyncEnv) (fs0 : Fs) (L : LMap)
    (R : RMap) (res : SyncState)
    (hIC : env.ignoreCase = false)
    (hL : NodupKeys L) (hR : NodupKeys R) (hF : NodupKeys fs0)
    (hKey : ∀ p l, alookup L p = some l → l.FilePath = p)
    (hTL : ∀ p l, alookup L p = some l → l.Tombstone = true →
      env.now - l.ModTime ≤ 30 * 24 * 60 * 60)
    (hTR : ∀ p r, alookup R p = some r → r.Tombstone = true →
      env.now - r.ModTime ≤ 30 * 24 * 60 * 60)
    (hRun : compareAndSync env fs0 (some L) (some R) = .ok res) :
    compareAndSync env res.fs (some res.localItems) (some res.remoteItems)
      = .ok ⟨res.localItems, res.remoteItems, res.fs, [], [], false⟩ ∧
    FinishWrite res.remoteItems false = none := by
  rcases h1 : lwFold env (localNewerOf L R) ⟨L, R, fs0, [], [], false⟩ with e | st1
  · have hcontra : compareAndSync env fs0 (some L) (some R) = .error e := by
      show (match lwFold env (localNewerOf L R) ⟨L, R, fs0, [], [], false⟩ with
        | .error e => (.error e : Except String SyncState)
        | .ok s1 =>
          .ok (gcTombstones env.deleteOk env.now
            (rwFold env (remoteNewerOf L R) s1))) = _
      rw [h1]
    rw [hcontra] at hRun
    exact absurd hRun (by simp)
  · have hnoexp := run1_noexp env fs0 L R st1 hL hR hTL hTR h1
    have hndR2 : NodupKeys (rwFold env (remoteNewerOf L R) st1).remoteItems := by
      rw [(rwFold_frame env (remoteNewerOf L R) st1).1]
      exact (lwFold_frame env (localNewerOf L R) ⟨L, R, fs0, [], [], false⟩
        st1 h1).2.2.2 hR
    have hgcid : gcTombstones env.deleteOk env.now
        (rwFold env (remoteNewerOf L R) st1)
        = rwFold env (remoteNewerOf L R) st1 := by
      refine gcFold_identity env.deleteOk env.now _ _ (fun q hq => ?_)
      rintro ⟨hT, hexp⟩
      exact absurd hexp
        (not_lt_of_ge (hnoexp q.1 q.2 (alookup_eq_some_of_mem hndR2 hq) hT))
    have hres : res = rwFold env (remoteNewerOf L R) st1 := by
      have hok : compareAndSync env fs0 (some L) (some R)
          = .ok (gcTombstones env.deleteOk env.now
            (rwFold env (remoteNewerOf L R) st1)) := by
        show (match lwFold env (localNewerOf L R) ⟨L, R, fs0, [], [], false⟩ with
          | .error e => (.error e : Except String SyncState)
          | .ok s1 =>
            .ok (gcTombstones env.deleteOk env.now
              (rwFold env (remoteNewerOf L R) s1))) = _
        rw [h1]
      rw [hok] at hRun
      rw [hgcid] at hRun
      exact (Except.ok.injEq .. ▸ hRun).symm
    subst hres
    refine ⟨?_, rfl⟩
    refine stable_run_noop env _ _ _ hIC ?_ hndR2 ?_ hnoexp
    · have := (rwFold_frame env (remoteNewerOf L R) st1).2.2.1
      refine this ?_
      have hL1 : st1.localItems = L :=
        (lwFold_frame env (localNewerOf L R) ⟨L, R, fs0, [], [], false⟩ st1 h1).1
      rw [hL1]
      exact hL
    · exact run1_stable env fs0 L R st1 hIC hL hR hF hKey h1

/-- The C3 counterexample environment: clock at 10, all deletes succeed. -/
def envC3 : SyncEnv := ⟨false, fun _ => "", fun _ => "", fun _ => true, 10⟩

/-- The C3 counterexample remote index: one fresh tombstone. -/
def RC3 : RMap := [(["a.txt"], ⟨5, true, ""⟩)]

/-- C3 counterexample: a first pass over an empty local snapshot and a
remote index holding one fresh tombstone succeeds and changes nothing, yet
a second pass over its outputs still classifies that path remote-wins —
so the claim that the second run classifies no path as local-wins or
remote-wins is false (the re-classified tombstone merely applies as a
no-op). -/
theorem reconciler_second_run_reclassifies :
    compareAndSync envC3 [] (some []) (some RC3)
      = .ok ⟨[], RC3, [], [], [], false⟩ ∧
    alookup (remoteNewerOf ([] : LMap) RC3) ["a.txt"] = some ⟨5, true, ""⟩ :=
  ⟨rfl, rfl⟩

/-- The C3 witness environment. -/
def envW3 : SyncEnv := ⟨false, fun _ => "", fun _ => "d", fun _ => true, 100⟩

/-- The C3 witness remote index: one remote-only file to download. -/
def RW3 : RMap := [(["b"], ⟨7, false, ""⟩)]

/-- The reconciler state after the first pass of the C3 witness. -/
def resW3 : SyncState :=
  ⟨[(["b"], ⟨["b"], 7, false⟩)], RW3, [(["b"], ⟨"d", 7⟩)],
   [ClientOp.get ["b"]], [FsOp.write ["b"] "d" 7], false⟩

theorem reconciler_second_run_noop_witness :
    compareAndSync envW3 resW3.fs (some resW3.localItems)
        (some resW3.remoteItems)
      = .ok ⟨resW3.localItems, resW3.remoteItems, resW3.fs, [], [], false⟩ ∧
    FinishWrite resW3.remoteItems false = none :=
  reconciler_second_run_noop envW3 [] [] RW3 resW3 rfl (by decide) (by decide)
    (by decide)
    (fun p l h => absurd h (by simp [alookup_nil]))
    (fun p l h _ => absurd h (by simp [alookup_nil]))
    (by
      intro p r h hT
      rw [show RW3 = [(["b"], ⟨7, false, ""⟩)] from rfl, alookup_cons] at h
      by_cases hp : ["b"] = p
      · rw [if_pos hp] at h
        obtain rfl : (⟨7, false, ""⟩ : RemoteItem) = r := Option.some.injEq .. ▸ h
        exact absurd hT (by simp)
      · rw [if_neg hp, alookup_nil] at h
        exact absurd h (by simp))
    rfl
